import Mathlib

/-!
Verification of the 2-adic genus-symbol machinery of
`src/sage/quadratic_forms/genera/genus.py`.

A 2-adic local genus symbol is a list of quintuples `[m, n, d, s, o]`
(scale exponent, rank, determinant class, even/odd type, oddity).  The
Python code stores them as lists of Python ints; we embed a quintuple as
the structure `Block` with five `Int` fields, and a raw (possibly
ill-shaped) symbol entry as a `List Int` where tuple arity matters
(`is_2_adic_genus` checks arity at runtime).

Python's `%` on ints returns a result with the sign of the divisor; for
the positive moduli 8 and 2 used throughout this is exactly Lean's
`Int.emod` (the `%` of `Int`), so `%` translates literally.
-/

namespace SageGenus

/-- One Jordan-block record `[m, n, d, s, o]` of a 2-adic genus symbol:
scale exponent `m`, rank `n`, determinant class `d`, type `s`
(0 = even, 1 = odd), oddity `o`.  All five entries are Python ints. -/
structure Block where
  m : Int
  n : Int
  d : Int
  s : Int
  o : Int
deriving DecidableEq, Repr

/-- Read `symbol[j]` for a list of blocks; total, with an all-zero default
outside the range (every access performed by the embedded code is in
range, mirroring Python's in-range indexing). -/
def blkAt : List Block → Nat → Block
  | [], _ => ⟨0, 0, 0, 0, 0⟩
  | b :: _, 0 => b
  | _ :: rest, j + 1 => blkAt rest j

/-- In-place field update `symbol[j] = f (symbol[j])`, as a pure list
operation (out-of-range indices leave the list unchanged; all updates
performed by the embedded code are in range). -/
def updAt : List Block → Nat → (Block → Block) → List Block
  | [], _, _ => []
  | b :: rest, 0, f => f b :: rest
  | b :: rest, j + 1, f => b :: updAt rest j f

/-- The scale/type projection of a symbol.  `canonical_2_adic_compartments`
and `canonical_2_adic_trains` read only the fields `m` (index 0) and `s`
(index 3) of each block, so they factor through this projection. -/
def shape (l : List Block) : List (Int × Int) :=
  l.map fun b => (b.m, b.s)

/-- Result of a Python function that either returns a `Bool` or raises
`TypeError`. -/
inductive PyResult where
  | ok (b : Bool)
  | typeError
deriving DecidableEq, Repr

/-- The body of the `for s in genus_symbol_quintuple_list` loop of
`is_2_adic_genus` (genus.py lines 178–199), applied to a single entry:
raise (`typeError`) when the entry is not a quintuple, return `False`
(`ok false`) when one of the Conway–Sloane conditions fails, and fall
through (`ok true`) otherwise.  The checks appear in source order. -/
def blockCheck (s : List Int) : PyResult :=
  match s with
  | [_m, n, d, sp, o] =>
    -- if s[1] == 1: if s[3] == 0 or s[2] != s[4]: return False
    if n = 1 ∧ (sp = 0 ∨ d ≠ o) then .ok false
    -- if s[1] == 2 and s[3] == 1: if s[2]%8 in (1,7): if not s[4] in (0,2,6): return False
    else if (n = 2 ∧ sp = 1) ∧ ((d % 8 = 1 ∨ d % 8 = 7) ∧ ¬(o = 0 ∨ o = 2 ∨ o = 6)) then
      .ok false
    -- ... if s[2]%8 in (3,5): if not s[4] in (2,4,6): return False
    else if (n = 2 ∧ sp = 1) ∧ ((d % 8 = 3 ∨ d % 8 = 5) ∧ ¬(o = 2 ∨ o = 4 ∨ o = 6)) then
      .ok false
    -- if (s[1] - s[4]) % 2 == 1: return False
    else if (n - o) % 2 = 1 then .ok false
    -- if s[3] == 0 and s[4] != 0: return False
    else if sp = 0 ∧ o ≠ 0 then .ok false
    else .ok true
  | _ => .typeError

/-- The function `is_2_adic_genus(genus_symbol_quintuple_list)` (genus.py lines
141–199): scan the entries in order; the first entry that is not a
quintuple raises `TypeError`, the first failing Conway–Sloane check
returns `False`, and if every entry passes the function returns
`True`. -/
def is_2_adic_genus : List (List Int) → PyResult
  | [] => .ok true
  | s :: rest =>
    match blockCheck s with
    | .ok true => is_2_adic_genus rest
    | r => r

/-!
### `canonical_2_adic_compartments` (genus.py lines 203–269)

The Python is a pair of nested `while` loops over positions of the
symbol: the outer loop (position `i` over the whole list) starts a
compartment whenever it sees an odd block (`s[3] == 1`); the inner loop
collects indices `i, i+1, …` as long as the blocks are odd with scales
`v, v+1, …` (starting from the scale of the first block).  When the
inner loop stops, the compartment is appended and the outer loop resumes
at the first uncollected position — which, when the inner loop stopped
on a mismatching block, is that very block, re-examined by the outer
loop.  `compAux` is this two-mode scan as one recursion over the list:
mode `none` is the outer search, mode `some (c, v)` is the inner loop
carrying the (reversed) partial compartment `c` and the next expected
scale `v`.
-/

/-- The nested scanning loops of `canonical_2_adic_compartments`; `i` is
the absolute index of the head of `l`. -/
def compAux : List Block → Nat → Option (List Nat × Int) → List (List Nat)
  | [], _, none => []
  | [], _, some (c, _) => [c.reverse]
  | b :: rest, i, none =>
    if b.s = 1 then compAux rest (i + 1) (some ([i], b.m + 1))
    else compAux rest (i + 1) none
  | b :: rest, i, some (c, v) =>
    if b.s = 1 ∧ b.m = v then compAux rest (i + 1) (some (i :: c, v + 1))
    else
      c.reverse ::
        (if b.s = 1 then compAux rest (i + 1) (some ([i], b.m + 1))
         else compAux rest (i + 1) none)

/-- The function `canonical_2_adic_compartments(genus_symbol_quintuple_list)`:
the list of compartments (runs of odd blocks with consecutive scales),
each as a list of indices into the symbol. -/
def canonical_2_adic_compartments (symbol : List Block) : List (List Nat) :=
  compAux symbol 0 none

/-!
### `canonical_2_adic_trains` (genus.py lines 271–371)

The Python appends a virtual terminator block
`[symbol[-1][0] + 1, 0, 1, 0, 0]` to the caller's list, runs
`for i in range(1, len(symbol) - 1)` over the extended list, and pops
the terminator in a `finally` block.  After the append the list has
`r + 1` entries (`r` = original length), so the loop range is
`1 … r - 1` and each iteration looks at `symbol[i-1 : i+1]`; every index
touched is `≤ r - 1`, i.e. the terminator itself is never read by the
loop.  The scan below therefore walks the consecutive pairs of the
original list; `canonical_2_adic_trains_mut` additionally models the
append/pop on the caller's list.  (On an empty list the Python raises
`IndexError` while evaluating `symbol[-1]`, before any mutation; we
return `[]` and state all theorems for nonempty symbols.)
-/

/-- Condition under which a new train starts between adjacent blocks
`prev` and `cur`: scale gap above 2; scale gap exactly 2 with at least
one even side (`cur[3]*prev[3] == 0`); or two adjacent even blocks. -/
def breakP (prev cur : Block) : Prop :=
  (2 < cur.m - prev.m)
    ∨ (cur.m - prev.m = 2 ∧ cur.s * prev.s = 0)
    ∨ (prev.s = 0 ∧ cur.s = 0)

instance (prev cur : Block) : Decidable (breakP prev cur) := by
  unfold breakP; infer_instance

/-- The `for i in range(1, len(symbol)-1)` loop of
`canonical_2_adic_trains`: `prev` is `symbol[i-1]`, the head of `l` is
`symbol[i]`, and `cur` is the current train accumulated in reverse. -/
def trainsFrom : Block → List Block → Nat → List Nat → List (List Nat)
  | _, [], _, cur => [cur.reverse]
  | prev, b :: rest, i, cur =>
    if breakP prev b then cur.reverse :: trainsFrom b rest (i + 1) [i]
    else trainsFrom b rest (i + 1) (i :: cur)

/-- The function `canonical_2_adic_trains(genus_symbol_quintuple_list)`: the list of
trains, each as a list of indices into the symbol. -/
def canonical_2_adic_trains : List Block → List (List Nat)
  | [] => []
  | b :: l => trainsFrom b l 1 [0]

/-- The function `canonical_2_adic_trains` with the caller-visible list state
threaded explicitly: the Python appends the terminator to the caller's
list, computes the trains (the loop never reads the terminator, see
above), and pops the terminator in a `finally` block.  The second
component is the caller's list as observed after the call returns. -/
def canonical_2_adic_trains_mut : List Block → List (List Nat) × List Block
  | [] => ([], [])
  | b :: l =>
    let appended := (b :: l) ++ [⟨(l.getLastD b).m + 1, 0, 1, 0, 0⟩]
    (trainsFrom b l 1 [0], appended.dropLast)

/-!
### `canonical_2_adic_reduction` (genus.py lines 373–459)

The Python deep-copies the input, then lets `canonical_symbol` alias the
copy, so the three phases (determinant normalization, oddity fusion,
sign walking) all mutate one list sequentially; we model that list by
value.  The compartments are computed after determinant normalization
and the trains after oddity fusion, exactly as in the source.
-/

/-- Determinant normalization (`d in (1,7)` — literal membership, not a
congruence mod 8 — maps to `+1`, everything else to `-1`). -/
def normalizeDet (b : Block) : Block :=
  if b.d = 1 ∨ b.d = 7 then { b with d := 1 } else { b with d := -1 }

/-- Oddity fusion for one compartment: sum the members' oddities mod 8,
zero every member's oddity, then write the sum at the first member.
(Compartments are always nonempty; `headD 0` stands for `compart[0]`.) -/
def fuseCompartment (s : List Block) (compart : List Nat) : List Block :=
  let oddity := ((compart.map fun i => (blkAt s i).o).sum) % 8
  let s1 := compart.foldl (fun acc i => updAt acc i fun b => { b with o := 0 }) s
  updAt s1 (compart.headD 0) fun b => { b with o := oddity }

/-- The oddity correction of a sign walk from index `t1` to `t1 - 1`:
every compartment containing `t1 - 1` or `t1` gets `+4 mod 8` added to
the oddity stored at its first member. -/
def oddityCorrect (comps : List (List Nat)) (t1 : Nat) (s : List Block) : List Block :=
  comps.foldl
    (fun acc compart =>
      if (t1 - 1) ∈ compart ∨ t1 ∈ compart then
        updAt acc (compart.headD 0) fun b => { b with o := (b.o + 4) % 8 }
      else acc)
    s

/-- One sign-walking step at index `t1`: when the block at `t1` has
determinant `-1`, set it to `+1`, multiply the determinant of block
`t1 - 1` by `-1`, and apply the oddity corrections.  In the reduction
`t1` is always a non-head member of a train, hence `t1 ≥ 1`, so the
`Nat` subtraction `t1 - 1` coincides with Python's `t1 - 1`. -/
def signWalkStep (comps : List (List Nat)) (s : List Block) (t1 : Nat) : List Block :=
  if (blkAt s t1).d = -1 then
    let s1 := updAt s t1 fun b => { b with d := 1 }
    let s2 := updAt s1 (t1 - 1) fun b => { b with d := -1 * b.d }
    oddityCorrect comps t1 s2
  else s

/-- Sign walking over one train: Python's
`for i in range(t-1): t1 = train[t-i-1]` visits
`train[t-1], …, train[1]`, i.e. the elements of
`train.reverse.dropLast` in order. -/
def walkTrain (comps : List (List Nat)) (s : List Block) (train : List Nat) : List Block :=
  (train.reverse.dropLast).foldl (signWalkStep comps) s

/-- The function `canonical_2_adic_reduction(genus_symbol_quintuple_list)`:
determinant normalization, oddity fusion, then sign walking. -/
def canonical_2_adic_reduction (sym : List Block) : List Block :=
  let s1 := sym.map normalizeDet
  let comps := canonical_2_adic_compartments s1
  let s2 := comps.foldl fuseCompartment s1
  (canonical_2_adic_trains s2).foldl (walkTrain comps) s2

/-- The function `canonical_2_adic_reduction` with the caller-visible list threaded:
the Python operates on a `copy.deepcopy` of the input, so the caller's
list is returned unchanged alongside the result. -/
def canonical_2_adic_reduction_mut (sym : List Block) : List Block × List Block :=
  (canonical_2_adic_reduction sym, sym)

/-- Variant of the sign-walk oddity correction following the claim's
words: the `+4 mod 8` is applied exactly when the pair `(t1-1, t1)`
straddles the compartment's boundary, i.e. the compartment contains
exactly one of the two indices. -/
def oddityCorrectStraddle (comps : List (List Nat)) (t1 : Nat) (s : List Block) :
    List Block :=
  comps.foldl
    (fun acc compart =>
      if ((t1 - 1) ∈ compart ∧ t1 ∉ compart) ∨ ((t1 - 1) ∉ compart ∧ t1 ∈ compart) then
        updAt acc (compart.headD 0) fun b => { b with o := (b.o + 4) % 8 }
      else acc)
    s

/-- The function `canonical_2_adic_reduction` with the straddle-only oddity
correction of the claim, all else identical to the source. -/
def canonical_2_adic_reduction_straddle (sym : List Block) : List Block :=
  let s1 := sym.map normalizeDet
  let comps := canonical_2_adic_compartments s1
  let s2 := comps.foldl fuseCompartment s1
  (canonical_2_adic_trains s2).foldl
    (fun s train =>
      (train.reverse.dropLast).foldl
        (fun s t1 =>
          if (blkAt s t1).d = -1 then
            let s1 := updAt s t1 fun b => { b with d := 1 }
            let s2 := updAt s1 (t1 - 1) fun b => { b with d := -1 * b.d }
            oddityCorrectStraddle comps t1 s2
          else s)
        s)
    s2

/-- Variant of the sign-walk oddity correction in which the guard is
spelled "the compartment contains at least one of the two indices":
straddling pairs and pairs lying entirely inside the compartment. -/
def oddityCorrectAtLeastOne (comps : List (List Nat)) (t1 : Nat) (s : List Block) :
    List Block :=
  comps.foldl
    (fun acc compart =>
      if ((t1 - 1) ∈ compart ∧ t1 ∉ compart) ∨ ((t1 - 1) ∉ compart ∧ t1 ∈ compart)
          ∨ ((t1 - 1) ∈ compart ∧ t1 ∈ compart) then
        updAt acc (compart.headD 0) fun b => { b with o := (b.o + 4) % 8 }
      else acc)
    s

/-- The function `canonical_2_adic_reduction` with the at-least-one oddity-correction
guard, all else identical to the source. -/
def canonical_2_adic_reduction_atLeastOne (sym : List Block) : List Block :=
  let s1 := sym.map normalizeDet
  let comps := canonical_2_adic_compartments s1
  let s2 := comps.foldl fuseCompartment s1
  (canonical_2_adic_trains s2).foldl
    (fun s train =>
      (train.reverse.dropLast).foldl
        (fun s t1 =>
          if (blkAt s t1).d = -1 then
            let s1 := updAt s t1 fun b => { b with d := 1 }
            let s2 := updAt s1 (t1 - 1) fun b => { b with d := -1 * b.d }
            oddityCorrectAtLeastOne comps t1 s2
          else s)
        s)
    s2

/-- A well-formed compartment of a symbol `s`: a nonempty contiguous
range of in-range indices whose blocks are all odd with scales
increasing by exactly 1 from the first member. -/
def GoodComp (s : List Block) (c : List Nat) : Prop :=
  ∃ a n, 0 < n ∧ c = List.range' a n ∧ a + n ≤ s.length ∧
    ∀ j, a ≤ j → j < a + n →
      (blkAt s j).s = 1 ∧ (blkAt s j).m = (blkAt s a).m + (j : Int) - (a : Int)

/-!
## Theorems

First the claims about `is_2_adic_genus` (C9, C10), then regression
vectors from the doctests, then the structural theory of compartments,
trains and the reduction (C5, C6, C8, C7, C3).
-/

/-- A list of `Int` of length 5 is literally a five-element list. -/
theorem exists_quintuple_of_length (s : List Int) (h : s.length = 5) :
    ∃ a b c d e : Int, s = [a, b, c, d, e] := by
  match s, h with
  | [a, b, c, d, e], _ => exact ⟨a, b, c, d, e, rfl⟩

/-- An entry that is not a quintuple makes `blockCheck` raise. -/
theorem blockCheck_typeError_of_length_ne (s : List Int) (h : s.length ≠ 5) :
    blockCheck s = .typeError := by
  match s with
  | [] => rfl
  | [_] => rfl
  | [_, _] => rfl
  | [_, _, _] => rfl
  | [_, _, _, _] => rfl
  | [_, _, _, _, _] => exact absurd rfl h
  | _ :: _ :: _ :: _ :: _ :: _ :: _ => rfl

/-- On a genuine quintuple `blockCheck` never raises. -/
theorem blockCheck_quintuple_ne_typeError (a b c d e : Int) :
    blockCheck [a, b, c, d, e] ≠ .typeError := by
  rw [blockCheck]
  split
  · decide
  · split
    · decide
    · split
      · decide
      · split
        · decide
        · split
          · decide
          · decide

/-- Claim C9 counterexample: the input `[[0,1,1,0,1],[0,1]]` contains the
entry `[0,1]` of arity 2 ≠ 5, yet `is_2_adic_genus` returns `False`
instead of raising `TypeError`: the first entry `[0,1,1,0,1]` has rank 1
with `s = 0` and fails the Conway–Sloane check before the malformed
entry is reached. -/
theorem is_2_adic_genus_arity_no_error_cex :
    (([0, 1] : List Int) ∈ ([[0, 1, 1, 0, 1], [0, 1]] : List (List Int)))
      ∧ ([0, 1] : List Int).length ≠ 5
      ∧ is_2_adic_genus [[0, 1, 1, 0, 1], [0, 1]] = .ok false
      ∧ is_2_adic_genus [[0, 1, 1, 0, 1], [0, 1]] ≠ .typeError := by
  refine ⟨by decide, by decide, by decide, by decide⟩

/-- Claim C9 (amended): `is_2_adic_genus` raises `TypeError` on a list
containing an entry of arity ≠ 5 provided the first such entry is
reached, i.e. provided every entry before it passes all the
Conway–Sloane checks (equivalently, the prefix alone would return
`True`). -/
theorem is_2_adic_genus_arity_error_when_reached (pre : List (List Int))
    (s : List Int) (post : List (List Int))
    (hpre : is_2_adic_genus pre = .ok true) (hs : s.length ≠ 5) :
    is_2_adic_genus (pre ++ s :: post) = .typeError := by
  induction pre with
  | nil =>
    simp only [List.nil_append, is_2_adic_genus,
      blockCheck_typeError_of_length_ne s hs]
  | cons q pre ih =>
    rw [List.cons_append]
    rw [is_2_adic_genus] at hpre ⊢
    match hq : blockCheck q with
    | .ok true => rw [hq] at hpre; exact ih hpre
    | .ok false =>
      rw [hq] at hpre
      exact absurd (show PyResult.ok false = PyResult.ok true from hpre) (by decide)
    | .typeError => rw [hq] at hpre

/-- Witness for `is_2_adic_genus_arity_error_when_reached` at the
concrete input `[[0,2,1,0,0],[0,1]]`. -/
theorem is_2_adic_genus_arity_error_when_reached_witness :
    is_2_adic_genus ([[0, 2, 1, 0, 0]] ++ ([0, 1] : List Int) :: []) = .typeError :=
  is_2_adic_genus_arity_error_when_reached [[0, 2, 1, 0, 0]] [0, 1] []
    (by decide) (by decide)

/-- Claim C10: on a list of genuine quintuples, a rank-one block that is
even (`s = 0`) or whose oddity differs from its determinant (`d ≠ o`)
forces `is_2_adic_genus` to return `False`. -/
theorem is_2_adic_genus_rank_one_false (l : List (List Int))
    (h5 : ∀ s ∈ l, s.length = 5)
    (hx : ∃ a d sp o : Int, ([a, 1, d, sp, o] ∈ l) ∧ (sp = 0 ∨ d ≠ o)) :
    is_2_adic_genus l = .ok false := by
  induction l with
  | nil => obtain ⟨_, _, _, _, h, _⟩ := hx; exact absurd h (by simp)
  | cons q rest ih =>
    obtain ⟨a, d, sp, o, hmem, hviol⟩ := hx
    rw [is_2_adic_genus]
    rcases List.mem_cons.mp hmem with hq | hq
    · -- the violating quintuple is the head: the first check fires
      subst hq
      have : blockCheck [a, 1, d, sp, o] = .ok false := by
        rw [blockCheck, if_pos ⟨rfl, by tauto⟩]
      rw [this]
    · -- the violating quintuple is in the tail
      have hrest : is_2_adic_genus rest = .ok false :=
        ih (fun s hs => h5 s (List.mem_cons_of_mem _ hs)) ⟨a, d, sp, o, hq, hviol⟩
      obtain ⟨x1, x2, x3, x4, x5, rfl⟩ :=
        exists_quintuple_of_length q (h5 q (List.mem_cons_self _ _))
      match hbc : blockCheck [x1, x2, x3, x4, x5] with
      | .ok true => exact hrest
      | .ok false => rfl
      | .typeError => exact absurd hbc (blockCheck_quintuple_ne_typeError _ _ _ _ _)

/-- Witness for `is_2_adic_genus_rank_one_false` at the concrete input
`[[0,1,1,0,1]]` (rank-one block with `s = 0`). -/
theorem is_2_adic_genus_rank_one_false_witness :
    is_2_adic_genus [[0, 1, 1, 0, 1]] = .ok false :=
  is_2_adic_genus_rank_one_false [[0, 1, 1, 0, 1]] (by decide)
    ⟨0, 1, 0, 1, by decide, by decide⟩

/-!
Regression vectors from the doctests of genus.py, checking that the
embedding reproduces the reference outputs.
-/

theorem regression_compartments_1 :
    canonical_2_adic_compartments [⟨0, 2, 1, 1, 2⟩] = [[0]] := by decide

theorem regression_compartments_2 :
    canonical_2_adic_compartments [⟨0, 1, 1, 1, 1⟩, ⟨1, 1, 1, 1, 1⟩] = [[0, 1]] := by
  decide

theorem regression_compartments_3 :
    canonical_2_adic_compartments
      [⟨1, 2, 3, 1, 4⟩, ⟨2, 1, 1, 1, 1⟩, ⟨3, 1, 1, 1, 1⟩] = [[0, 1, 2]] := by decide

theorem regression_compartments_4 :
    canonical_2_adic_compartments [⟨0, 2, 3, 0, 0⟩] = [] := by decide

theorem regression_trains_1 :
    canonical_2_adic_trains
      [⟨0, 1, 1, 1, 1⟩, ⟨1, 2, -1, 0, 0⟩, ⟨2, 1, 1, 1, 1⟩, ⟨3, 1, 1, 1, 1⟩,
       ⟨4, 1, 1, 1, 1⟩, ⟨5, 2, -1, 0, 0⟩, ⟨7, 1, 1, 1, 1⟩, ⟨10, 1, 1, 1, 1⟩,
       ⟨11, 1, 1, 1, 1⟩, ⟨12, 1, 1, 1, 1⟩]
      = [[0, 1, 2, 3, 4, 5], [6], [7, 8, 9]] := by decide

theorem regression_trains_2 :
    canonical_2_adic_trains [⟨0, 1, 1, 1, 1⟩, ⟨1, 3, 1, 1, 1⟩] = [[0, 1]] := by decide

theorem regression_reduction_1 :
    canonical_2_adic_reduction [⟨0, 2, 1, 1, 2⟩] = [⟨0, 2, 1, 1, 2⟩] := by decide

theorem regression_reduction_2 :
    canonical_2_adic_reduction [⟨0, 1, 1, 1, 1⟩, ⟨1, 1, 1, 1, 1⟩]
      = [⟨0, 1, 1, 1, 2⟩, ⟨1, 1, 1, 1, 0⟩] := by decide

theorem regression_reduction_3 :
    canonical_2_adic_reduction [⟨1, 2, 3, 1, 4⟩, ⟨2, 1, 1, 1, 1⟩, ⟨3, 1, 1, 1, 1⟩]
      = [⟨1, 2, -1, 1, 6⟩, ⟨2, 1, 1, 1, 0⟩, ⟨3, 1, 1, 1, 0⟩] := by decide

theorem regression_reduction_4 :
    canonical_2_adic_reduction [⟨0, 2, 3, 0, 0⟩] = [⟨0, 2, -1, 0, 0⟩] := by decide

/-- Claim C7 counterexample: on `[[0,1,1,1,1],[1,1,3,1,3]]` the whole
symbol is one compartment `[0,1]` and one train; sign walking moves a
`-1` from index 1 to index 0, a pair lying entirely inside the
compartment.  The code still adds `4 mod 8` to the compartment's fused
oddity (result oddity `0`), while the claimed straddle-only rule would
leave it untouched (oddity `4`), so the two disagree. -/
theorem sign_walk_straddle_only_cex :
    canonical_2_adic_reduction [⟨0, 1, 1, 1, 1⟩, ⟨1, 1, 3, 1, 3⟩]
        ≠ canonical_2_adic_reduction_straddle [⟨0, 1, 1, 1, 1⟩, ⟨1, 1, 3, 1, 3⟩]
      ∧ canonical_2_adic_compartments
          ([⟨0, 1, 1, 1, 1⟩, ⟨1, 1, 3, 1, 3⟩].map normalizeDet) = [[0, 1]]
      ∧ canonical_2_adic_reduction [⟨0, 1, 1, 1, 1⟩, ⟨1, 1, 3, 1, 3⟩]
        = [⟨0, 1, -1, 1, 0⟩, ⟨1, 1, 1, 1, 0⟩]
      ∧ canonical_2_adic_reduction_straddle [⟨0, 1, 1, 1, 1⟩, ⟨1, 1, 3, 1, 3⟩]
        = [⟨0, 1, -1, 1, 4⟩, ⟨1, 1, 1, 1, 0⟩] := by
  refine ⟨by decide, by decide, by decide, by decide⟩

/-- The at-least-one guard is equivalent to the source's disjunctive
membership test, compartment by compartment. -/
theorem oddityCorrectAtLeastOne_eq (comps : List (List Nat)) (t1 : Nat)
    (s : List Block) :
    oddityCorrectAtLeastOne comps t1 s = oddityCorrect comps t1 s := by
  unfold oddityCorrectAtLeastOne oddityCorrect
  congr 1
  funext acc compart
  by_cases h1 : (t1 - 1) ∈ compart <;> by_cases h2 : t1 ∈ compart <;> simp [h1, h2]

/-- Claim C7 (amended): during sign walking, the `+4 mod 8` correction
to a compartment's fused oddity is applied exactly when the compartment
contains at least one of the two indices `t1 - 1`, `t1` of the move —
straddling pairs and pairs lying entirely inside the compartment alike:
the reduction equals the variant whose guard is spelled that way. -/
theorem sign_walk_correction_at_least_one (sym : List Block) :
    canonical_2_adic_reduction sym = canonical_2_adic_reduction_atLeastOne sym := by
  unfold canonical_2_adic_reduction canonical_2_adic_reduction_atLeastOne
    walkTrain signWalkStep
  simp only [oddityCorrectAtLeastOne_eq]

/-!
### Pointwise access and update lemmas
-/

theorem blkAt_cons_succ (b : Block) (l : List Block) (k : Nat) :
    blkAt (b :: l) (k + 1) = blkAt l k := rfl

theorem length_updAt (l : List Block) (j : Nat) (f : Block → Block) :
    (updAt l j f).length = l.length := by
  induction l generalizing j with
  | nil => rfl
  | cons b rest ih =>
    cases j with
    | zero => rfl
    | succ j => simp [updAt, ih]

theorem blkAt_updAt_ne (l : List Block) (j k : Nat) (f : Block → Block)
    (h : k ≠ j) : blkAt (updAt l j f) k = blkAt l k := by
  induction l generalizing j k with
  | nil => rfl
  | cons b rest ih =>
    cases j with
    | zero =>
      cases k with
      | zero => exact absurd rfl h
      | succ k => rfl
    | succ j =>
      cases k with
      | zero => rfl
      | succ k => exact ih j k (by omega)

theorem blkAt_updAt_self (l : List Block) (j : Nat) (f : Block → Block)
    (h : j < l.length) : blkAt (updAt l j f) j = f (blkAt l j) := by
  induction l generalizing j with
  | nil => simp at h
  | cons b rest ih =>
    cases j with
    | zero => rfl
    | succ j => exact ih j (by simpa using h)

theorem updAt_eq_self (l : List Block) (j : Nat) (f : Block → Block)
    (h : f (blkAt l j) = blkAt l j) : updAt l j f = l := by
  induction l generalizing j with
  | nil => rfl
  | cons b rest ih =>
    cases j with
    | zero => simpa [updAt, blkAt] using h
    | succ j => simpa [updAt] using ih j h

theorem eq_of_blkAt_eq (l₁ l₂ : List Block) (hlen : l₁.length = l₂.length)
    (h : ∀ k, blkAt l₁ k = blkAt l₂ k) : l₁ = l₂ := by
  induction l₁ generalizing l₂ with
  | nil => cases l₂ with
    | nil => rfl
    | cons b₂ r₂ => simp at hlen
  | cons b₁ r₁ ih =>
    cases l₂ with
    | nil => simp at hlen
    | cons b₂ r₂ =>
      have hb : b₁ = b₂ := h 0
      have : r₁ = r₂ := ih r₂ (by simpa using hlen) (fun k => h (k + 1))
      rw [hb, this]

theorem blkAt_mem (l : List Block) (k : Nat) (h : k < l.length) :
    blkAt l k ∈ l := by
  induction l generalizing k with
  | nil => simp at h
  | cons b rest ih =>
    cases k with
    | zero => exact List.mem_cons_self _ _
    | succ k => exact List.mem_cons_of_mem _ (ih k (by simpa using h))

theorem mem_exists_blkAt (l : List Block) (b : Block) (h : b ∈ l) :
    ∃ k, k < l.length ∧ blkAt l k = b := by
  induction l with
  | nil => simp at h
  | cons b₀ rest ih =>
    rcases List.mem_cons.mp h with rfl | h'
    · exact ⟨0, by simp, rfl⟩
    · obtain ⟨k, hk, hb⟩ := ih h'
      exact ⟨k + 1, by simpa using hk, hb⟩

theorem blkAt_map (f : Block → Block) (l : List Block) (k : Nat)
    (h : k < l.length) : blkAt (l.map f) k = f (blkAt l k) := by
  induction l generalizing k with
  | nil => simp at h
  | cons b rest ih =>
    cases k with
    | zero => rfl
    | succ k => exact ih k (by simpa using h)

theorem map_eq_self_of_mem (f : Block → Block) (l : List Block)
    (h : ∀ b ∈ l, f b = b) : l.map f = l := by
  induction l with
  | nil => rfl
  | cons b rest ih =>
    simp only [List.map_cons, h b (List.mem_cons_self _ _),
      ih fun x hx => h x (List.mem_cons_of_mem _ hx)]

theorem block_with_o_self (b : Block) (x : Int) (h : b.o = x) :
    ({ b with o := x } : Block) = b := by cases b; cases h; rfl

theorem sum_eq_zero_of_forall_zero (l : List Int) (h : ∀ x ∈ l, x = 0) :
    l.sum = 0 := by
  induction l with
  | nil => rfl
  | cons x t ih =>
    simp only [List.sum_cons, h x (List.mem_cons_self _ _),
      ih fun y hy => h y (List.mem_cons_of_mem _ hy), zero_add]

/-!
### Shape lemmas: compartments and trains read only `m` and `s`
-/

theorem shape_length (l : List Block) : (shape l).length = l.length := by
  simp [shape]

theorem shape_eq_of_fields (l₁ l₂ : List Block) (hlen : l₁.length = l₂.length)
    (h : ∀ k, k < l₁.length →
      (blkAt l₁ k).m = (blkAt l₂ k).m ∧ (blkAt l₁ k).s = (blkAt l₂ k).s) :
    shape l₁ = shape l₂ := by
  induction l₁ generalizing l₂ with
  | nil => cases l₂ with
    | nil => rfl
    | cons b₂ r₂ => simp at hlen
  | cons b₁ r₁ ih =>
    cases l₂ with
    | nil => simp at hlen
    | cons b₂ r₂ =>
      have h0 : b₁.m = b₂.m ∧ b₁.s = b₂.s := h 0 (by simp)
      have ht : shape r₁ = shape r₂ :=
        ih r₂ (by simpa using hlen) (fun k hk => h (k + 1) (by simpa using hk))
      simp only [shape, List.map_cons] at ht ⊢
      rw [h0.1, h0.2, ht]

theorem compAux_shape (l₁ l₂ : List Block) (i : Nat) (st : Option (List Nat × Int))
    (h : shape l₁ = shape l₂) : compAux l₁ i st = compAux l₂ i st := by
  induction l₁ generalizing l₂ i st with
  | nil =>
    cases l₂ with
    | nil => rfl
    | cons b₂ r₂ => simp [shape] at h
  | cons b₁ r₁ ih =>
    cases l₂ with
    | nil => simp [shape] at h
    | cons b₂ r₂ =>
      simp only [shape, List.map_cons, List.cons.injEq, Prod.mk.injEq] at h
      obtain ⟨⟨hm, hs⟩, ht⟩ := h
      cases st with
      | none => simp only [compAux, hm, hs, ih r₂ _ _ ht]
      | some cv =>
        obtain ⟨c, v⟩ := cv
        simp only [compAux, hm, hs, ih r₂ _ _ ht]

theorem compartments_shape (l₁ l₂ : List Block) (h : shape l₁ = shape l₂) :
    canonical_2_adic_compartments l₁ = canonical_2_adic_compartments l₂ :=
  compAux_shape l₁ l₂ 0 none h

theorem trainsFrom_shape (p₁ p₂ : Block) (l₁ l₂ : List Block) (i : Nat)
    (cur : List Nat) (hm : p₁.m = p₂.m) (hs : p₁.s = p₂.s)
    (h : shape l₁ = shape l₂) :
    trainsFrom p₁ l₁ i cur = trainsFrom p₂ l₂ i cur := by
  induction l₁ generalizing l₂ p₁ p₂ i cur with
  | nil =>
    cases l₂ with
    | nil => rfl
    | cons b₂ r₂ => simp [shape] at h
  | cons b₁ r₁ ih =>
    cases l₂ with
    | nil => simp [shape] at h
    | cons b₂ r₂ =>
      simp only [shape, List.map_cons, List.cons.injEq, Prod.mk.injEq] at h
      obtain ⟨⟨hbm, hbs⟩, ht⟩ := h
      have hbrk : breakP p₁ b₁ ↔ breakP p₂ b₂ := by
        unfold breakP; rw [hm, hs, hbm, hbs]
      simp only [trainsFrom]
      by_cases hb : breakP p₁ b₁
      · rw [if_pos hb, if_pos (hbrk.mp hb), ih b₁ b₂ r₂ _ _ hbm hbs ht]
      · rw [if_neg hb, if_neg (fun hc => hb (hbrk.mpr hc)), ih b₁ b₂ r₂ _ _ hbm hbs ht]

theorem trains_shape (l₁ l₂ : List Block) (h : shape l₁ = shape l₂) :
    canonical_2_adic_trains l₁ = canonical_2_adic_trains l₂ := by
  cases l₁ with
  | nil => cases l₂ with
    | nil => rfl
    | cons b₂ r₂ => simp [shape] at h
  | cons b₁ r₁ =>
    cases l₂ with
    | nil => simp [shape] at h
    | cons b₂ r₂ =>
      simp only [shape, List.map_cons, List.cons.injEq, Prod.mk.injEq] at h
      exact trainsFrom_shape b₁ b₂ r₁ r₂ 1 [0] h.1.1 h.1.2 h.2

/-!
### Structure of `canonical_2_adic_trains`
-/

/-- The concatenation of the trains produced by the scanning loop is
the accumulated current train followed by the remaining index range. -/
theorem trainsFrom_flatten (prev : Block) (l : List Block) (i : Nat) (cur : List Nat) :
    (trainsFrom prev l i cur).flatten = cur.reverse ++ List.range' i l.length := by
  induction l generalizing prev i cur with
  | nil => simp [trainsFrom]
  | cons b rest ih =>
    simp only [trainsFrom]
    by_cases hb : breakP prev b
    · rw [if_pos hb]
      simp only [List.flatten_cons, ih b (i + 1) [i], List.length_cons,
        List.range'_succ]
      simp
    · rw [if_neg hb, ih b (i + 1) (i :: cur)]
      simp [List.range'_succ]

/-- The trains of a nonempty symbol partition the index range in order. -/
theorem trains_flatten (b : Block) (l : List Block) :
    (canonical_2_adic_trains (b :: l)).flatten = List.range (b :: l).length := by
  rw [canonical_2_adic_trains, trainsFrom_flatten, List.range_eq_range']
  simp [List.range'_succ]

/-- Splitting `range' a n` as an append determines both parts. -/
theorem append_eq_range' (t rest : List Nat) (a n : Nat)
    (h : t ++ rest = List.range' a n) :
    t = List.range' a t.length ∧ rest = List.range' (a + t.length) (n - t.length) := by
  induction t generalizing a n with
  | nil => simpa using h
  | cons x t' ih =>
    cases n with
    | zero => simp at h
    | succ n =>
      rw [List.range'_succ] at h
      have hx : x = a ∧ t' ++ rest = List.range' (a + 1) n := by simpa using h
      obtain ⟨hxa, h'⟩ := hx
      subst hxa
      obtain ⟨h1, h2⟩ := ih (x + 1) n h'
      refine ⟨by rw [List.length_cons, List.range'_succ, ← h1], ?_⟩
      rw [h2]
      have e1 : x + 1 + t'.length = x + (x :: t').length := by
        simp only [List.length_cons]; omega
      have e2 : n - t'.length = n + 1 - (x :: t').length := by
        simp only [List.length_cons]; omega
      rw [e1, e2]

/-- Every member of a flatten-decomposition of a range is itself a
contiguous range of indices. -/
theorem mem_of_flatten_range' (L : List (List Nat)) (a n : Nat)
    (h : L.flatten = List.range' a n) :
    ∀ t ∈ L, ∃ c, t = List.range' c t.length := by
  induction L generalizing a n with
  | nil => simp
  | cons t₀ rest ih =>
    rw [List.flatten_cons] at h
    obtain ⟨h1, h2⟩ := append_eq_range' t₀ rest.flatten a n h
    intro t ht
    rcases List.mem_cons.mp ht with rfl | ht'
    · exact ⟨a, h1⟩
    · exact ih _ _ h2 t ht'

/-- Trains are nonempty (the accumulator never becomes empty). -/
theorem trainsFrom_ne_nil (prev : Block) (l : List Block) (i : Nat) (cur : List Nat)
    (hc : cur ≠ []) : ∀ t ∈ trainsFrom prev l i cur, t ≠ [] := by
  induction l generalizing prev i cur with
  | nil =>
    intro t ht
    simp only [trainsFrom, List.mem_singleton] at ht
    subst ht; simpa using hc
  | cons b rest ih =>
    intro t ht
    simp only [trainsFrom] at ht
    by_cases hb : breakP prev b
    · rw [if_pos hb] at ht
      rcases List.mem_cons.mp ht with rfl | ht'
      · simpa using hc
      · exact ih b (i + 1) [i] (by simp) t ht'
    · rw [if_neg hb] at ht
      exact ih b (i + 1) (i :: cur) (by simp) t ht

/-- Some produced train contains the whole current accumulator. -/
theorem trainsFrom_first_contains (prev : Block) (l : List Block) (i : Nat)
    (cur : List Nat) :
    ∃ t ∈ trainsFrom prev l i cur, ∀ x ∈ cur, x ∈ t := by
  induction l generalizing prev i cur with
  | nil =>
    exact ⟨cur.reverse, by simp [trainsFrom], fun x hx => by simpa using hx⟩
  | cons b rest ih =>
    by_cases hb : breakP prev b
    · refine ⟨cur.reverse, ?_, fun x hx => by simpa using hx⟩
      simp [trainsFrom, if_pos hb]
    · obtain ⟨t, ht, hsub⟩ := ih b (i + 1) (i :: cur)
      refine ⟨t, ?_, fun x hx => hsub x (List.mem_cons_of_mem _ hx)⟩
      simp [trainsFrom, if_neg hb, ht]

/-- If the adjacent pair at loop position `i + k` does not break, the
two indices `i + k - 1` and `i + k` land in the same train. -/
theorem trainsFrom_adjacent (prev : Block) (l : List Block) (i : Nat) (cur : List Nat)
    (hcur : i - 1 ∈ cur) (k : Nat) (hk : k < l.length)
    (hnb : ¬ breakP (blkAt (prev :: l) k) (blkAt l k)) :
    ∃ t ∈ trainsFrom prev l i cur, (i + k - 1) ∈ t ∧ (i + k) ∈ t := by
  induction l generalizing prev i cur k with
  | nil => simp at hk
  | cons b rest ih =>
    cases k with
    | zero =>
      have hb : ¬ breakP prev b := hnb
      obtain ⟨t, ht, hsub⟩ := trainsFrom_first_contains b rest (i + 1) (i :: cur)
      have htr : t ∈ trainsFrom prev (b :: rest) i cur := by
        simp [trainsFrom, if_neg hb, ht]
      refine ⟨t, htr, ?_, ?_⟩
      · have : i - 1 ∈ t := hsub _ (List.mem_cons_of_mem _ hcur)
        simpa using this
      · simpa using hsub i (List.mem_cons_self _ _)
    | succ k =>
      have hnb' : ¬ breakP (blkAt (b :: rest) k) (blkAt rest k) := hnb
      have e1 : i + (k + 1) - 1 = i + 1 + k - 1 := by omega
      have e2 : i + (k + 1) = i + 1 + k := by omega
      by_cases hb : breakP prev b
      · obtain ⟨t, ht, h1, h2⟩ :=
          ih b (i + 1) [i] (by simp) k (by simpa using hk) hnb'
        refine ⟨t, ?_, by rw [e1]; exact h1, by rw [e2]; exact h2⟩
        simp only [trainsFrom, if_pos hb]
        exact List.mem_cons_of_mem _ ht
      · obtain ⟨t, ht, h1, h2⟩ :=
          ih b (i + 1) (i :: cur) (by simp) k (by simpa using hk) hnb'
        refine ⟨t, ?_, by rw [e1]; exact h1, by rw [e2]; exact h2⟩
        simp only [trainsFrom, if_neg hb]
        exact ht

/-- Adjacent indices of a symbol whose pair does not satisfy the
break condition lie in the same train. -/
theorem trains_adjacent (b : Block) (l : List Block) (k : Nat)
    (hk : k + 1 < (b :: l).length)
    (hnb : ¬ breakP (blkAt (b :: l) k) (blkAt (b :: l) (k + 1))) :
    ∃ t ∈ canonical_2_adic_trains (b :: l), k ∈ t ∧ (k + 1) ∈ t := by
  have hk' : k < l.length := by simpa using hk
  obtain ⟨t, ht, h1, h2⟩ := trainsFrom_adjacent b l 1 [0] (by simp) k hk' hnb
  have e1 : 1 + k - 1 = k := by omega
  have e2 : 1 + k = k + 1 := by omega
  exact ⟨t, ht, by rw [← e1]; exact h1, by rw [← e2]; exact h2⟩

/-- In a decomposition with duplicate-free concatenation, an index
determines its part. -/
theorem flatten_nodup_mem_unique (L : List (List Nat)) (hnd : L.flatten.Nodup)
    (t₁ t₂ : List Nat) (h₁ : t₁ ∈ L) (h₂ : t₂ ∈ L) (j : Nat)
    (hj₁ : j ∈ t₁) (hj₂ : j ∈ t₂) : t₁ = t₂ := by
  induction L with
  | nil => simp at h₁
  | cons t rest ih =>
    rw [List.flatten_cons, List.nodup_append] at hnd
    obtain ⟨hnt, hnr, hdisj⟩ := hnd
    rcases List.mem_cons.mp h₁ with rfl | h₁' <;> rcases List.mem_cons.mp h₂ with rfl | h₂'
    · rfl
    · exact (hdisj hj₁ (List.mem_flatten.mpr ⟨t₂, h₂', hj₂⟩)).elim
    · exact (hdisj hj₂ (List.mem_flatten.mpr ⟨t₁, h₁', hj₁⟩)).elim
    · exact ih hnr h₁' h₂'

/-!
### Structure of `canonical_2_adic_compartments`
-/

theorem range'_concat_one (s n : Nat) :
    List.range' s (n + 1) = List.range' s n ++ [s + n] := by
  induction n generalizing s with
  | zero => simp [List.range'_succ]
  | succ n ih =>
    rw [List.range'_succ, ih (s + 1), List.range'_succ]
    have : s + 1 + n = s + (n + 1) := by omega
    rw [List.cons_append, this]

theorem drop_eq_cons_facts (s : List Block) (i : Nat) (b : Block) (rest : List Block)
    (h : List.drop i s = b :: rest) :
    i < s.length ∧ blkAt s i = b ∧ List.drop (i + 1) s = rest := by
  induction s generalizing i with
  | nil => simp at h
  | cons x s' ih =>
    cases i with
    | zero =>
      have hx : x = b ∧ s' = rest := by simpa using h
      exact ⟨by simp, hx.1, by simpa using hx.2⟩
    | succ i =>
      have h' : List.drop i s' = b :: rest := by simpa using h
      obtain ⟨h1, h2, h3⟩ := ih i h'
      exact ⟨by simpa using h1, h2, by simpa using h3⟩

/-- Every list produced by the compartment scan is a well-formed
compartment.  The scan invariant: the working state `some (c, v)` holds
the reversed range `a … i-1` of already-collected odd blocks with
consecutive scales, and `v` is the scale expected at position `i`. -/
theorem compAux_good (s : List Block) (l : List Block) :
    ∀ (i : Nat) (st : Option (List Nat × Int)), List.drop i s = l →
      (∀ c v, st = some (c, v) →
        ∃ a, a < i ∧ i ≤ s.length ∧ c = (List.range' a (i - a)).reverse ∧
          (∀ j, a ≤ j → j < i →
            (blkAt s j).s = 1 ∧ (blkAt s j).m = (blkAt s a).m + (j : Int) - (a : Int)) ∧
          v = (blkAt s a).m + (i : Int) - (a : Int)) →
      ∀ c' ∈ compAux l i st, GoodComp s c' := by
  induction l with
  | nil =>
    intro i st hdrop hinv c' hc'
    cases st with
    | none => simp [compAux] at hc'
    | some cv =>
      obtain ⟨c, v⟩ := cv
      obtain ⟨a, ha, hil, hc, hblocks, _⟩ := hinv c v rfl
      have hc'' : c' = List.range' a (i - a) := by
        simp only [compAux, List.mem_singleton] at hc'
        rw [hc', hc, List.reverse_reverse]
      exact ⟨a, i - a, by omega, hc'', by omega,
        fun j hj1 hj2 => hblocks j hj1 (by omega)⟩
  | cons b rest ih =>
    intro i st hdrop hinv c' hc'
    obtain ⟨hilen, hbi, hdrop'⟩ := drop_eq_cons_facts s i b rest hdrop
    cases st with
    | none =>
      simp only [compAux] at hc'
      by_cases hbs : b.s = 1
      · rw [if_pos hbs] at hc'
        refine ih (i + 1) _ hdrop' ?_ c' hc'
        intro c v hcv
        obtain ⟨hc, hv⟩ : c = [i] ∧ v = b.m + 1 := by
          injection hcv with h
          injection h with h1 h2
          exact ⟨h1.symm, h2.symm⟩
        refine ⟨i, by omega, by omega, ?_, ?_, ?_⟩
        · rw [hc]
          have : i + 1 - i = 1 := by omega
          rw [this, List.range'_succ]
          simp
        · intro j hj1 hj2
          have : j = i := by omega
          subst this
          rw [hbi]
          exact ⟨hbs, by push_cast; ring⟩
        · rw [hv, hbi]; push_cast; ring
      · rw [if_neg hbs] at hc'
        exact ih (i + 1) none hdrop' (by simp) c' hc'
    | some cv =>
      obtain ⟨c, v⟩ := cv
      obtain ⟨a, ha, hil, hc, hblocks, hv⟩ := hinv c v rfl
      simp only [compAux] at hc'
      by_cases hmatch : b.s = 1 ∧ b.m = v
      · rw [if_pos hmatch] at hc'
        refine ih (i + 1) _ hdrop' ?_ c' hc'
        intro c₂ v₂ hcv
        obtain ⟨hc₂, hv₂⟩ : c₂ = i :: c ∧ v₂ = v + 1 := by
          injection hcv with h
          injection h with h1 h2
          exact ⟨h1.symm, h2.symm⟩
        refine ⟨a, by omega, by omega, ?_, ?_, ?_⟩
        · rw [hc₂, hc]
          have e : i + 1 - a = (i - a) + 1 := by omega
          rw [e, range'_concat_one]
          have e2 : a + (i - a) = i := by omega
          rw [e2, List.reverse_append]
          simp
        · intro j hj1 hj2
          rcases Nat.lt_or_ge j i with hj | hj
          · exact hblocks j hj1 hj
          · have : j = i := by omega
            subst this
            rw [hbi]
            refine ⟨hmatch.1, ?_⟩
            rw [hmatch.2, hv]
        · rw [hv₂, hv]; push_cast; ring
      · rw [if_neg hmatch] at hc'
        rcases List.mem_cons.mp hc' with rfl | hc''
        · -- the flushed compartment
          refine ⟨a, i - a, by omega, ?_, by omega,
            fun j hj1 hj2 => hblocks j hj1 (by omega)⟩
          rw [hc, List.reverse_reverse]
        · by_cases hbs : b.s = 1
          · rw [if_pos hbs] at hc''
            refine ih (i + 1) _ hdrop' ?_ c' hc''
            intro c₂ v₂ hcv
            obtain ⟨hc₂, hv₂⟩ : c₂ = [i] ∧ v₂ = b.m + 1 := by
              injection hcv with h
              injection h with h1 h2
              exact ⟨h1.symm, h2.symm⟩
            refine ⟨i, by omega, by omega, ?_, ?_, ?_⟩
            · rw [hc₂]
              have : i + 1 - i = 1 := by omega
              rw [this, List.range'_succ]
              simp
            · intro j hj1 hj2
              have : j = i := by omega
              subst this
              rw [hbi]
              exact ⟨hbs, by push_cast; ring⟩
            · rw [hv₂, hbi]; push_cast; ring
          · rw [if_neg hbs] at hc''
            exact ih (i + 1) none hdrop' (by simp) c' hc''

/-- Every compartment of a symbol is a well-formed compartment. -/
theorem compartments_good (s : List Block) :
    ∀ c ∈ canonical_2_adic_compartments s, GoodComp s c :=
  fun c hc => compAux_good s s 0 none rfl (by simp) c hc

/-- Lower bounds and strict ordering of the concatenated compartment
scan output: the collected indices are strictly increasing, and every
index is either in the working compartment or at least `i`. -/
theorem compAux_flatten_pairwise (l : List Block) :
    ∀ (i : Nat) (st : Option (List Nat × Int)),
      (∀ c v, st = some (c, v) → c.Pairwise (· > ·) ∧ ∀ j ∈ c, j < i) →
      (compAux l i st).flatten.Pairwise (· < ·) ∧
        ∀ j ∈ (compAux l i st).flatten,
          (∀ c v, st = some (c, v) → j ∈ c ∨ i ≤ j) ∧ (st = none → i ≤ j) := by
  induction l with
  | nil =>
    intro i st hinv
    cases st with
    | none => simp [compAux]
    | some cv =>
      obtain ⟨c, v⟩ := cv
      obtain ⟨hp, hb⟩ := hinv c v rfl
      constructor
      · simp only [compAux, List.flatten_cons, List.flatten_nil, List.append_nil]
        exact List.pairwise_reverse.mpr hp
      · intro j hj
        simp only [compAux, List.flatten_cons, List.flatten_nil, List.append_nil,
          List.mem_reverse] at hj
        exact ⟨fun c' v' h => by cases h; exact Or.inl hj, fun h => by cases h⟩
  | cons b rest ih =>
    intro i st hinv
    cases st with
    | none =>
      simp only [compAux]
      by_cases hbs : b.s = 1
      · rw [if_pos hbs]
        have hnew : ∀ c v, (some ([i], b.m + 1) : Option (List Nat × Int)) = some (c, v) →
            c.Pairwise (· > ·) ∧ ∀ j ∈ c, j < i + 1 := by
          intro c v h
          cases h
          exact ⟨List.pairwise_singleton _ _, by simp⟩
        obtain ⟨h1, h2⟩ := ih (i + 1) _ hnew
        refine ⟨h1, fun j hj => ⟨fun c v h => (nomatch h), fun _ => ?_⟩⟩
        rcases (h2 j hj).1 [i] (b.m + 1) rfl with hji | hji
        · simp only [List.mem_singleton] at hji
          omega
        · omega
      · rw [if_neg hbs]
        obtain ⟨h1, h2⟩ := ih (i + 1) none (by simp)
        refine ⟨h1, fun j hj => ⟨fun c v h => (nomatch h), fun _ => ?_⟩⟩
        have := (h2 j hj).2 rfl
        omega
    | some cv =>
      obtain ⟨c, v⟩ := cv
      obtain ⟨hp, hb⟩ := hinv c v rfl
      simp only [compAux]
      by_cases hmatch : b.s = 1 ∧ b.m = v
      · rw [if_pos hmatch]
        have hnew : ∀ c₂ v₂, (some (i :: c, v + 1) : Option (List Nat × Int)) = some (c₂, v₂) →
            c₂.Pairwise (· > ·) ∧ ∀ j ∈ c₂, j < i + 1 := by
          intro c₂ v₂ h
          cases h
          refine ⟨List.pairwise_cons.mpr ⟨fun j hj => hb j hj, hp⟩, ?_⟩
          intro j hj
          rcases List.mem_cons.mp hj with rfl | hj
          · omega
          · have := hb j hj; omega
        obtain ⟨h1, h2⟩ := ih (i + 1) _ hnew
        refine ⟨h1, fun j hj => ⟨fun c' v' h => ?_, fun h => by cases h⟩⟩
        cases h
        rcases (h2 j hj).1 (i :: c) (v + 1) rfl with hji | hji
        · rcases List.mem_cons.mp hji with rfl | hji
          · exact Or.inr (le_refl _)
          · exact Or.inl hji
        · exact Or.inr (by omega)
      · rw [if_neg hmatch]
        -- inner scan facts, uniform over the two restart modes
        have hinner : ∀ res, (res = (if b.s = 1 then
              compAux rest (i + 1) (some ([i], b.m + 1))
            else compAux rest (i + 1) none)) →
            res.flatten.Pairwise (· < ·) ∧ ∀ j ∈ res.flatten, i ≤ j := by
          intro res hres
          by_cases hbs : b.s = 1
          · rw [if_pos hbs] at hres
            subst hres
            have hnew : ∀ c₂ v₂, (some ([i], b.m + 1) : Option (List Nat × Int)) = some (c₂, v₂) →
                c₂.Pairwise (· > ·) ∧ ∀ j ∈ c₂, j < i + 1 := by
              intro c₂ v₂ h
              cases h
              exact ⟨List.pairwise_singleton _ _, by simp⟩
            obtain ⟨h1, h2⟩ := ih (i + 1) _ hnew
            refine ⟨h1, fun j hj => ?_⟩
            rcases (h2 j hj).1 [i] (b.m + 1) rfl with hji | hji
            · simp only [List.mem_singleton] at hji; omega
            · omega
          · rw [if_neg hbs] at hres
            subst hres
            obtain ⟨h1, h2⟩ := ih (i + 1) none (by simp)
            refine ⟨h1, fun j hj => ?_⟩
            have := (h2 j hj).2 rfl
            omega
        obtain ⟨hin1, hin2⟩ := hinner _ rfl
        constructor
        · rw [List.flatten_cons, List.pairwise_append]
          refine ⟨List.pairwise_reverse.mpr hp, hin1, ?_⟩
          intro x hx y hy
          have hx' : x ∈ c := List.mem_reverse.mp hx
          have := hb x hx'
          have := hin2 y hy
          omega
        · intro j hj
          rw [List.flatten_cons, List.mem_append] at hj
          refine ⟨fun c' v' h => ?_, fun h => by cases h⟩
          cases h
          rcases hj with hj | hj
          · exact Or.inl (List.mem_reverse.mp hj)
          · exact Or.inr (hin2 j hj)

/-- The concatenation of all compartments is strictly increasing. -/
theorem compartments_flatten_pairwise (s : List Block) :
    (canonical_2_adic_compartments s).flatten.Pairwise (· < ·) :=
  (compAux_flatten_pairwise s 0 none (by simp)).1

/-- Distinct compartments are disjoint: an index determines its
compartment. -/
theorem compartments_mem_unique (s : List Block) (c₁ c₂ : List Nat)
    (h₁ : c₁ ∈ canonical_2_adic_compartments s)
    (h₂ : c₂ ∈ canonical_2_adic_compartments s) (j : Nat)
    (hj₁ : j ∈ c₁) (hj₂ : j ∈ c₂) : c₁ = c₂ :=
  flatten_nodup_mem_unique _
    ((compartments_flatten_pairwise s).imp Nat.ne_of_lt) c₁ c₂ h₁ h₂ j hj₁ hj₂

/-- The trains of a nonempty symbol have no repeated index. -/
theorem trains_flatten_nodup (b : Block) (l : List Block) :
    (canonical_2_adic_trains (b :: l)).flatten.Nodup := by
  rw [trains_flatten]
  exact List.nodup_range _

/-- An index determines its train. -/
theorem trains_mem_unique (b : Block) (l : List Block) (t₁ t₂ : List Nat)
    (h₁ : t₁ ∈ canonical_2_adic_trains (b :: l))
    (h₂ : t₂ ∈ canonical_2_adic_trains (b :: l)) (j : Nat)
    (hj₁ : j ∈ t₁) (hj₂ : j ∈ t₂) : t₁ = t₂ :=
  flatten_nodup_mem_unique _ (trains_flatten_nodup b l) t₁ t₂ h₁ h₂ j hj₁ hj₂

/-- Every train is a contiguous index range. -/
theorem trains_contiguous (b : Block) (l : List Block) :
    ∀ t ∈ canonical_2_adic_trains (b :: l), ∃ a, t = List.range' a t.length := by
  apply mem_of_flatten_range' _ 0 (b :: l).length
  rw [trains_flatten, List.range_eq_range']

/-- Train members are in-range indices. -/
theorem trains_mem_lt (b : Block) (l : List Block) :
    ∀ t ∈ canonical_2_adic_trains (b :: l), ∀ j ∈ t, j < (b :: l).length := by
  intro t ht j hj
  have : j ∈ (canonical_2_adic_trains (b :: l)).flatten :=
    List.mem_flatten.mpr ⟨t, ht, hj⟩
  rw [trains_flatten] at this
  exact List.mem_range.mp this

/-- Trains are nonempty. -/
theorem trains_nonempty (b : Block) (l : List Block) :
    ∀ t ∈ canonical_2_adic_trains (b :: l), t ≠ [] :=
  trainsFrom_ne_nil b l 1 [0] (by simp)

/-- Inside a well-formed compartment the break condition never holds:
adjacent members are odd blocks at scale gap exactly 1. -/
theorem goodComp_no_break (s : List Block) (a n : Nat)
    (hblocks : ∀ j, a ≤ j → j < a + n →
      (blkAt s j).s = 1 ∧ (blkAt s j).m = (blkAt s a).m + (j : Int) - (a : Int))
    (k : Nat) (hk1 : a ≤ k) (hk2 : k + 1 < a + n) :
    ¬ breakP (blkAt s k) (blkAt s (k + 1)) := by
  obtain ⟨hs1, hm1⟩ := hblocks k hk1 (by omega)
  obtain ⟨hs2, hm2⟩ := hblocks (k + 1) (by omega) (by omega)
  intro hbrk
  rcases hbrk with h | ⟨h, _⟩ | ⟨h1, _⟩
  · rw [hm1, hm2] at h; push_cast at h; omega
  · rw [hm1, hm2] at h; push_cast at h; omega
  · rw [hs1] at h1; exact absurd h1 (by decide)

/-- Every compartment is contained in a single train: walking along the
compartment, no adjacent pair breaks, and an index determines its
train. -/
theorem compartment_in_train (b : Block) (l : List Block)
    (c : List Nat) (hc : c ∈ canonical_2_adic_compartments (b :: l)) :
    ∃ t ∈ canonical_2_adic_trains (b :: l), ∀ j ∈ c, j ∈ t := by
  obtain ⟨a, n, hn, hceq, hlen, hblocks⟩ := compartments_good (b :: l) c hc
  have key : ∀ k, k < n → ∃ t ∈ canonical_2_adic_trains (b :: l),
      ∀ j, a ≤ j → j ≤ a + k → j ∈ t := by
    intro k
    induction k with
    | zero =>
      intro _
      have ha : a ∈ (canonical_2_adic_trains (b :: l)).flatten := by
        rw [trains_flatten]
        exact List.mem_range.mpr (by omega)
      obtain ⟨t, ht, hat⟩ := List.mem_flatten.mp ha
      refine ⟨t, ht, fun j hj1 hj2 => ?_⟩
      have : j = a := by omega
      subst this; exact hat
    | succ k ih =>
      intro hk
      obtain ⟨t, ht, hall⟩ := ih (by omega)
      have hnb : ¬ breakP (blkAt (b :: l) (a + k)) (blkAt (b :: l) (a + k + 1)) :=
        goodComp_no_break (b :: l) a n hblocks (a + k) (by omega) (by omega)
      obtain ⟨t', ht', h1, h2⟩ := trains_adjacent b l (a + k) (by omega) hnb
      have heq : t = t' := trains_mem_unique b l t t' ht ht' (a + k)
        (hall (a + k) (by omega) (by omega)) h1
      subst heq
      refine ⟨t, ht, fun j hj1 hj2 => ?_⟩
      rcases Nat.lt_or_ge j (a + k + 1) with h | h
      · exact hall j hj1 (by omega)
      · have : j = a + k + 1 := by omega
        subst this; exact h2
  obtain ⟨t, ht, hall⟩ := key (n - 1) (by omega)
  refine ⟨t, ht, fun j hj => ?_⟩
  rw [hceq] at hj
  have := List.mem_range'_1.mp hj
  exact hall j (by omega) (by omega)

/-- Claim C5: the trains of a nonempty 2-adic symbol are contiguous
index ranges whose concatenation, in order, is exactly
`0 … len(symbol) - 1` (so every index lies in exactly one train), and
every compartment is fully contained in a single train. -/
theorem trains_partition_and_compartments_in_trains (b : Block) (l : List Block) :
    (canonical_2_adic_trains (b :: l)).flatten = List.range (b :: l).length
      ∧ (∀ t ∈ canonical_2_adic_trains (b :: l), ∃ a, t = List.range' a t.length)
      ∧ ∀ c ∈ canonical_2_adic_compartments (b :: l),
          ∃ t ∈ canonical_2_adic_trains (b :: l), ∀ j ∈ c, j ∈ t :=
  ⟨trains_flatten b l, trains_contiguous b l, fun c hc => compartment_in_train b l c hc⟩

/-- Witness for `trains_partition_and_compartments_in_trains` at the
four-block symbol `[[0,2,3,1,4],[1,1,1,1,1],[2,1,1,1,1]]`. -/
theorem trains_partition_and_compartments_in_trains_witness :
    (canonical_2_adic_trains [⟨0, 2, 3, 1, 4⟩, ⟨1, 1, 1, 1, 1⟩, ⟨2, 1, 1, 1, 1⟩]).flatten
        = List.range ([⟨0, 2, 3, 1, 4⟩, ⟨1, 1, 1, 1, 1⟩, ⟨2, 1, 1, 1, 1⟩] : List Block).length
      ∧ (∀ t ∈ canonical_2_adic_trains [⟨0, 2, 3, 1, 4⟩, ⟨1, 1, 1, 1, 1⟩, ⟨2, 1, 1, 1, 1⟩],
          ∃ a, t = List.range' a t.length)
      ∧ ∀ c ∈ canonical_2_adic_compartments
            [⟨0, 2, 3, 1, 4⟩, ⟨1, 1, 1, 1, 1⟩, ⟨2, 1, 1, 1, 1⟩],
          ∃ t ∈ canonical_2_adic_trains [⟨0, 2, 3, 1, 4⟩, ⟨1, 1, 1, 1, 1⟩, ⟨2, 1, 1, 1, 1⟩],
            ∀ j ∈ c, j ∈ t :=
  trains_partition_and_compartments_in_trains ⟨0, 2, 3, 1, 4⟩
    [⟨1, 1, 1, 1, 1⟩, ⟨2, 1, 1, 1, 1⟩]

/-!
### Effect of oddity fusion on the symbol
-/

theorem updAt_out_of_range (l : List Block) (j : Nat) (f : Block → Block)
    (h : l.length ≤ j) : updAt l j f = l := by
  induction l generalizing j with
  | nil => rfl
  | cons b rest ih =>
    cases j with
    | zero => simp at h
    | succ j => simp only [updAt, ih j (by simpa using h)]

theorem blkAt_out_of_range (l : List Block) (k : Nat) (h : l.length ≤ k) :
    blkAt l k = ⟨0, 0, 0, 0, 0⟩ := by
  induction l generalizing k with
  | nil => rfl
  | cons b rest ih =>
    cases k with
    | zero => simp at h
    | succ k => exact ih k (by simpa using h)

theorem length_foldl_step {α : Type} (step : List Block → α → List Block)
    (h : ∀ s x, (step s x).length = s.length) (L : List α) (s : List Block) :
    (L.foldl step s).length = s.length := by
  induction L generalizing s with
  | nil => rfl
  | cons x L ih => rw [List.foldl_cons, ih, h]

theorem zeroFold_length (c : List Nat) (s : List Block) :
    (c.foldl (fun acc i => updAt acc i fun b => { b with o := 0 }) s).length
      = s.length :=
  length_foldl_step _ (fun s x => length_updAt s x _) c s

theorem blkAt_zeroFold_notmem (c : List Nat) (s : List Block) (k : Nat)
    (h : k ∉ c) :
    blkAt (c.foldl (fun acc i => updAt acc i fun b => { b with o := 0 }) s) k
      = blkAt s k := by
  induction c generalizing s with
  | nil => rfl
  | cons i₀ c' ih =>
    rw [List.foldl_cons, ih _ (fun hc => h (List.mem_cons_of_mem _ hc)),
      blkAt_updAt_ne _ _ _ _
        (fun he => h (by rw [he]; exact List.mem_cons_self _ _))]

theorem blkAt_zeroFold_mem (c : List Nat) (s : List Block) (k : Nat)
    (hm : k ∈ c) (hk : k < s.length) :
    blkAt (c.foldl (fun acc i => updAt acc i fun b => { b with o := 0 }) s) k
      = { blkAt s k with o := 0 } := by
  induction c generalizing s with
  | nil => simp at hm
  | cons i₀ c' ih =>
    rw [List.foldl_cons]
    by_cases hm' : k ∈ c'
    · rw [ih (updAt s i₀ _) hm' (by rw [length_updAt]; exact hk)]
      by_cases he : k = i₀
      · subst he
        rw [blkAt_updAt_self _ _ _ hk]
      · rw [blkAt_updAt_ne _ _ _ _ he]
    · have he : k = i₀ := by
        rcases List.mem_cons.mp hm with h | h
        · exact h
        · exact absurd h hm'
      subst he
      rw [blkAt_zeroFold_notmem c' _ k hm', blkAt_updAt_self _ _ _ hk]

/-- Every block of the zeroing fold agrees with the original except
possibly in the oddity field. -/
theorem blkAt_zeroFold_cases (c : List Nat) (s : List Block) (k : Nat) :
    blkAt (c.foldl (fun acc i => updAt acc i fun b => { b with o := 0 }) s) k
        = blkAt s k
      ∨ blkAt (c.foldl (fun acc i => updAt acc i fun b => { b with o := 0 }) s) k
        = { blkAt s k with o := 0 } := by
  by_cases hm : k ∈ c
  · by_cases hk : k < s.length
    · exact Or.inr (blkAt_zeroFold_mem c s k hm hk)
    · left
      rw [blkAt_out_of_range _ k (by rw [zeroFold_length]; omega),
        blkAt_out_of_range s k (by omega)]
  · exact Or.inl (blkAt_zeroFold_notmem c s k hm)

theorem fuseCompartment_length (s : List Block) (c : List Nat) :
    (fuseCompartment s c).length = s.length := by
  rw [fuseCompartment, length_updAt, zeroFold_length]

theorem blkAt_fuseCompartment_notmem (s : List Block) (c : List Nat) (k : Nat)
    (hne : c ≠ []) (h : k ∉ c) :
    blkAt (fuseCompartment s c) k = blkAt s k := by
  rw [fuseCompartment]
  have hhead : c.headD 0 ∈ c := by
    cases c with
    | nil => exact absurd rfl hne
    | cons x c' => exact List.mem_cons_self _ _
  rw [blkAt_updAt_ne _ _ _ _ (fun he => h (by rw [he]; exact hhead)),
    blkAt_zeroFold_notmem c s k h]

theorem blkAt_fuseCompartment_nonhead (s : List Block) (c : List Nat) (k : Nat)
    (hm : k ∈ c) (hh : k ≠ c.headD 0) (hk : k < s.length) :
    blkAt (fuseCompartment s c) k = { blkAt s k with o := 0 } := by
  rw [fuseCompartment, blkAt_updAt_ne _ _ _ _ hh, blkAt_zeroFold_mem c s k hm hk]

theorem blkAt_fuseCompartment_head (s : List Block) (c : List Nat)
    (hne : c ≠ []) (hk : c.headD 0 < s.length) :
    blkAt (fuseCompartment s c) (c.headD 0)
      = { blkAt s (c.headD 0) with
          o := ((c.map fun i => (blkAt s i).o).sum) % 8 } := by
  rw [fuseCompartment, blkAt_updAt_self _ _ _ (by rw [zeroFold_length]; exact hk)]
  rcases blkAt_zeroFold_cases c s (c.headD 0) with h | h <;> rw [h]

/-- Fusion changes only oddities: the other four fields survive. -/
theorem blkAt_fuseCompartment_cases (s : List Block) (c : List Nat) (k : Nat) :
    blkAt (fuseCompartment s c) k = blkAt s k
      ∨ ∃ x, blkAt (fuseCompartment s c) k = { blkAt s k with o := x } := by
  rw [fuseCompartment]
  by_cases hh : k = c.headD 0
  · rw [← hh]
    by_cases hk : k < s.length
    · right
      rw [blkAt_updAt_self _ _ _ (by rw [zeroFold_length]; exact hk)]
      rcases blkAt_zeroFold_cases c s k with h | h <;> rw [h] <;> exact ⟨_, rfl⟩
    · rw [updAt_out_of_range _ _ _ (by rw [zeroFold_length]; omega)]
      rcases blkAt_zeroFold_cases c s k with h | h
      · exact Or.inl h
      · exact Or.inr ⟨0, h⟩
  · rw [blkAt_updAt_ne _ _ _ _ hh]
    rcases blkAt_zeroFold_cases c s k with h | h
    · exact Or.inl h
    · exact Or.inr ⟨0, h⟩

theorem foldFuse_length (comps : List (List Nat)) (s : List Block) :
    (comps.foldl fuseCompartment s).length = s.length :=
  length_foldl_step _ (fun s x => fuseCompartment_length s x) comps s

/-- The fusion pass preserves scale, rank, determinant and type of every
block. -/
theorem blkAt_foldFuse_fields (comps : List (List Nat)) (s : List Block) (k : Nat) :
    (blkAt (comps.foldl fuseCompartment s) k).m = (blkAt s k).m
      ∧ (blkAt (comps.foldl fuseCompartment s) k).n = (blkAt s k).n
      ∧ (blkAt (comps.foldl fuseCompartment s) k).d = (blkAt s k).d
      ∧ (blkAt (comps.foldl fuseCompartment s) k).s = (blkAt s k).s := by
  induction comps generalizing s with
  | nil => exact ⟨rfl, rfl, rfl, rfl⟩
  | cons c comps ih =>
    rw [List.foldl_cons]
    obtain ⟨h1, h2, h3, h4⟩ := ih (fuseCompartment s c)
    rcases blkAt_fuseCompartment_cases s c k with h | ⟨x, h⟩ <;>
      rw [h1, h2, h3, h4, h] <;> exact ⟨rfl, rfl, rfl, rfl⟩

/-- Blocks belonging to no compartment are untouched by fusion. -/
theorem blkAt_foldFuse_frame (comps : List (List Nat)) (s : List Block) (k : Nat)
    (hne : ∀ c ∈ comps, c ≠ []) (h : ∀ c ∈ comps, k ∉ c) :
    blkAt (comps.foldl fuseCompartment s) k = blkAt s k := by
  induction comps generalizing s with
  | nil => rfl
  | cons c comps ih =>
    rw [List.foldl_cons,
      ih _ (fun c' hc' => hne c' (List.mem_cons_of_mem _ hc'))
        (fun c' hc' => h c' (List.mem_cons_of_mem _ hc')),
      blkAt_fuseCompartment_notmem s c k (hne c (List.mem_cons_self _ _))
        (h c (List.mem_cons_self _ _))]

/-- After the fusion pass, every non-head compartment member has oddity
0 and every compartment head has an oddity in `[0, 8)`. -/
theorem foldFuse_oddity_post (comps : List (List Nat)) (s : List Block)
    (hne : ∀ c ∈ comps, c ≠ []) (hnd : ∀ c ∈ comps, c.Nodup)
    (hlt : ∀ c ∈ comps, ∀ j ∈ c, j < s.length)
    (hdisj : comps.Pairwise List.Disjoint) :
    ∀ c ∈ comps,
      (∀ j ∈ c, j ≠ c.headD 0 → (blkAt (comps.foldl fuseCompartment s) j).o = 0)
        ∧ 0 ≤ (blkAt (comps.foldl fuseCompartment s) (c.headD 0)).o
        ∧ (blkAt (comps.foldl fuseCompartment s) (c.headD 0)).o < 8 := by
  induction comps generalizing s with
  | nil => simp
  | cons c₀ comps ih =>
    intro c hc
    have hdisj' : comps.Pairwise List.Disjoint := (List.pairwise_cons.mp hdisj).2
    have hd0 : ∀ c' ∈ comps, c₀.Disjoint c' := (List.pairwise_cons.mp hdisj).1
    rw [List.foldl_cons]
    rcases List.mem_cons.mp hc with rfl | hc'
    · -- the head compartment: fused now, untouched by the rest
      have hne0 : c ≠ [] := hne c (List.mem_cons_self _ _)
      have hhead : c.headD 0 ∈ c := by
        cases c with
        | nil => exact absurd rfl hne0
        | cons x c' => exact List.mem_cons_self _ _
      refine ⟨fun j hj hjh => ?_, ?_, ?_⟩
      · rw [blkAt_foldFuse_frame comps _ j
          (fun c' hc' => hne c' (List.mem_cons_of_mem _ hc'))
          (fun c' hc' hjc' => hd0 c' hc' hj hjc'),
          blkAt_fuseCompartment_nonhead s c j hj hjh
            (hlt c (List.mem_cons_self _ _) j hj)]
      · rw [blkAt_foldFuse_frame comps _ _
          (fun c' hc' => hne c' (List.mem_cons_of_mem _ hc'))
          (fun c' hc' hjc' => hd0 c' hc' hhead hjc'),
          blkAt_fuseCompartment_head s c hne0
            (hlt c (List.mem_cons_self _ _) _ hhead)]
        exact Int.emod_nonneg _ (by norm_num)
      · rw [blkAt_foldFuse_frame comps _ _
          (fun c' hc' => hne c' (List.mem_cons_of_mem _ hc'))
          (fun c' hc' hjc' => hd0 c' hc' hhead hjc'),
          blkAt_fuseCompartment_head s c hne0
            (hlt c (List.mem_cons_self _ _) _ hhead)]
        exact Int.emod_lt_of_pos _ (by norm_num)
    · exact ih (fuseCompartment s c₀)
        (fun c' hc'' => hne c' (List.mem_cons_of_mem _ hc''))
        (fun c' hc'' => hnd c' (List.mem_cons_of_mem _ hc''))
        (fun c' hc'' j hj => by
          rw [fuseCompartment_length]
          exact hlt c' (List.mem_cons_of_mem _ hc'') j hj)
        hdisj' c hc'

/-!
### Effect of sign walking on the symbol
-/

theorem headD_mem (c : List Nat) (h : c ≠ []) : c.headD 0 ∈ c := by
  cases c with
  | nil => exact absurd rfl h
  | cons x c' => exact List.mem_cons_self _ _

theorem pairwise_disjoint_of_flatten_nodup (L : List (List Nat))
    (h : L.flatten.Nodup) : L.Pairwise List.Disjoint := by
  induction L with
  | nil => exact List.Pairwise.nil
  | cons t rest ih =>
    rw [List.flatten_cons, List.nodup_append] at h
    obtain ⟨h1, h2, h3⟩ := h
    refine List.pairwise_cons.mpr ⟨fun t' ht' x hx hx' => ?_, ih h2⟩
    exact h3 hx (List.mem_flatten.mpr ⟨t', ht', hx'⟩)

theorem foldl_pres {α : Type} (step : List Block → α → List Block)
    (P : List Block → Prop) (h : ∀ s x, P s → P (step s x)) :
    ∀ (L : List α) (s : List Block), P s → P (L.foldl step s) := by
  intro L
  induction L with
  | nil => exact fun s hs => hs
  | cons x L ih => exact fun s hs => ih _ (h s x hs)

theorem oCases_trans (b₁ b₂ b₃ : Block)
    (h₁ : b₂ = b₁ ∨ ∃ x, b₂ = { b₁ with o := x })
    (h₂ : b₃ = b₂ ∨ ∃ x, b₃ = { b₂ with o := x }) :
    b₃ = b₁ ∨ ∃ x, b₃ = { b₁ with o := x } := by
  rcases h₁ with rfl | ⟨x, rfl⟩ <;> rcases h₂ with rfl | ⟨y, rfl⟩
  · exact Or.inl rfl
  · exact Or.inr ⟨y, rfl⟩
  · exact Or.inr ⟨x, rfl⟩
  · exact Or.inr ⟨y, rfl⟩

theorem blkAt_updAt_oOnly (s : List Block) (j k : Nat) (g : Block → Int) :
    blkAt (updAt s j fun b => { b with o := g b }) k = blkAt s k
      ∨ ∃ x, blkAt (updAt s j fun b => { b with o := g b }) k
          = { blkAt s k with o := x } := by
  by_cases he : k = j
  · rw [← he]
    by_cases hk : k < s.length
    · exact Or.inr ⟨_, blkAt_updAt_self _ _ _ hk⟩
    · rw [updAt_out_of_range _ _ _ (by omega)]
      exact Or.inl rfl
  · rw [blkAt_updAt_ne _ _ _ _ he]
    exact Or.inl rfl

theorem oddityCorrect_length (comps : List (List Nat)) (t1 : Nat) (s : List Block) :
    (oddityCorrect comps t1 s).length = s.length := by
  rw [oddityCorrect]
  refine length_foldl_step _ (fun s x => ?_) comps s
  dsimp only
  split
  · exact length_updAt s _ _
  · rfl

/-- The oddity corrections change only oddity fields. -/
theorem blkAt_oddityCorrect_cases (comps : List (List Nat)) (t1 : Nat)
    (s : List Block) (k : Nat) :
    blkAt (oddityCorrect comps t1 s) k = blkAt s k
      ∨ ∃ x, blkAt (oddityCorrect comps t1 s) k = { blkAt s k with o := x } := by
  rw [oddityCorrect]
  induction comps generalizing s with
  | nil => exact Or.inl rfl
  | cons c comps ih =>
    rw [List.foldl_cons]
    refine oCases_trans _ _ _ ?_ (ih _)
    dsimp only
    split
    · exact blkAt_updAt_oOnly s _ k _
    · exact Or.inl rfl

theorem blkAt_oddityCorrect_d (comps : List (List Nat)) (t1 : Nat)
    (s : List Block) (k : Nat) :
    (blkAt (oddityCorrect comps t1 s) k).d = (blkAt s k).d := by
  rcases blkAt_oddityCorrect_cases comps t1 s k with h | ⟨x, h⟩ <;> rw [h]

/-- Oddity corrections write only at compartment heads. -/
theorem blkAt_oddityCorrect_nonheads (comps : List (List Nat)) (t1 : Nat)
    (s : List Block) (k : Nat) (h : ∀ c ∈ comps, k ≠ c.headD 0) :
    blkAt (oddityCorrect comps t1 s) k = blkAt s k := by
  rw [oddityCorrect]
  induction comps generalizing s with
  | nil => rfl
  | cons c comps ih =>
    rw [List.foldl_cons]
    have hrec := ih (if (t1 - 1) ∈ c ∨ t1 ∈ c then
        updAt s (c.headD 0) fun b => { b with o := (b.o + 4) % 8 } else s)
      (fun c' hc' => h c' (List.mem_cons_of_mem _ hc'))
    rw [hrec]
    split
    · exact blkAt_updAt_ne _ _ _ _ (h c (List.mem_cons_self _ _))
    · rfl

/-- Oddity corrections keep an in-range oddity in `[0, 8)`. -/
theorem oddityCorrect_o_range (comps : List (List Nat)) (t1 : Nat)
    (s : List Block) (k : Nat)
    (h : 0 ≤ (blkAt s k).o ∧ (blkAt s k).o < 8) :
    0 ≤ (blkAt (oddityCorrect comps t1 s) k).o
      ∧ (blkAt (oddityCorrect comps t1 s) k).o < 8 := by
  rw [oddityCorrect]
  induction comps generalizing s with
  | nil => exact h
  | cons c comps ih =>
    rw [List.foldl_cons]
    refine ih _ ?_
    dsimp only
    split
    · by_cases he : k = c.headD 0
      · rw [← he]
        by_cases hk : k < s.length
        · rw [blkAt_updAt_self _ _ _ hk]
          exact ⟨Int.emod_nonneg _ (by norm_num), Int.emod_lt_of_pos _ (by norm_num)⟩
        · rw [updAt_out_of_range _ _ _ (by omega)]
          exact h
      · rw [blkAt_updAt_ne _ _ _ _ he]
        exact h
    · exact h

theorem blkAt_updAt_dOnly_mnso (s : List Block) (j k : Nat) (g : Block → Int) :
    (blkAt (updAt s j fun b => { b with d := g b }) k).m = (blkAt s k).m
      ∧ (blkAt (updAt s j fun b => { b with d := g b }) k).n = (blkAt s k).n
      ∧ (blkAt (updAt s j fun b => { b with d := g b }) k).s = (blkAt s k).s
      ∧ (blkAt (updAt s j fun b => { b with d := g b }) k).o = (blkAt s k).o := by
  by_cases he : k = j
  · rw [← he]
    by_cases hk : k < s.length
    · rw [blkAt_updAt_self _ _ _ hk]
      exact ⟨rfl, rfl, rfl, rfl⟩
    · rw [updAt_out_of_range _ _ _ (by omega)]
      exact ⟨rfl, rfl, rfl, rfl⟩
  · rw [blkAt_updAt_ne _ _ _ _ he]
    exact ⟨rfl, rfl, rfl, rfl⟩

theorem signWalkStep_length (comps : List (List Nat)) (s : List Block) (t1 : Nat) :
    (signWalkStep comps s t1).length = s.length := by
  rw [signWalkStep]
  split
  · rw [oddityCorrect_length, length_updAt, length_updAt]
  · rfl

/-- A sign-walking step preserves scale, rank and type everywhere. -/
theorem blkAt_signWalkStep_mns (comps : List (List Nat)) (s : List Block)
    (t1 k : Nat) :
    (blkAt (signWalkStep comps s t1) k).m = (blkAt s k).m
      ∧ (blkAt (signWalkStep comps s t1) k).n = (blkAt s k).n
      ∧ (blkAt (signWalkStep comps s t1) k).s = (blkAt s k).s := by
  rw [signWalkStep]
  split
  · have h2 := blkAt_updAt_dOnly_mnso s t1 k (fun _ => 1)
    have h3 := blkAt_updAt_dOnly_mnso (updAt s t1 fun b => { b with d := 1 })
      (t1 - 1) k (fun b => -1 * b.d)
    rcases blkAt_oddityCorrect_cases comps t1
      (updAt (updAt s t1 fun b => { b with d := 1 }) (t1 - 1)
        fun b => { b with d := -1 * b.d }) k with h | ⟨x, h⟩ <;>
      rw [h] <;>
      exact ⟨h3.1.trans h2.1, h3.2.1.trans h2.2.1, h3.2.2.1.trans h2.2.2.1⟩
  · exact ⟨rfl, rfl, rfl⟩

/-- A sign-walking step changes determinants only at `t1` and `t1 - 1`. -/
theorem blkAt_signWalkStep_d_frame (comps : List (List Nat)) (s : List Block)
    (t1 k : Nat) (h1 : k ≠ t1) (h2 : k ≠ t1 - 1) :
    (blkAt (signWalkStep comps s t1) k).d = (blkAt s k).d := by
  rw [signWalkStep]
  split
  · rw [blkAt_oddityCorrect_d, blkAt_updAt_ne _ _ _ _ h2, blkAt_updAt_ne _ _ _ _ h1]
  · rfl

/-- After a sign-walking step the determinant at `t1` is `+1`
(provided `t1 ≥ 1`, in range, and the determinant was `±1`). -/
theorem blkAt_signWalkStep_d_t1 (comps : List (List Nat)) (s : List Block)
    (t1 : Nat) (ht : 1 ≤ t1) (hlen : t1 < s.length)
    (hd : (blkAt s t1).d = 1 ∨ (blkAt s t1).d = -1) :
    (blkAt (signWalkStep comps s t1) t1).d = 1 := by
  rw [signWalkStep]
  split
  · rw [blkAt_oddityCorrect_d, blkAt_updAt_ne _ _ _ _ (by omega),
      blkAt_updAt_self _ _ _ hlen]
  · rcases hd with h | h
    · exact h
    · next hcond => exact absurd h hcond

/-- A sign-walking step keeps every in-range determinant in `{1, -1}`. -/
theorem signWalkStep_dpm (comps : List (List Nat)) (s : List Block) (t1 : Nat)
    (h : ∀ k, k < s.length → ((blkAt s k).d = 1 ∨ (blkAt s k).d = -1)) :
    ∀ k, k < s.length →
      ((blkAt (signWalkStep comps s t1) k).d = 1
        ∨ (blkAt (signWalkStep comps s t1) k).d = -1) := by
  intro k hk
  rw [signWalkStep]
  split
  · rw [blkAt_oddityCorrect_d]
    by_cases he2 : k = t1 - 1
    · rw [← he2]
      rw [blkAt_updAt_self _ _ _ (by rw [length_updAt]; exact hk)]
      by_cases he1 : k = t1
      · rw [← he1, blkAt_updAt_self _ _ _ hk]
        simp
      · rw [blkAt_updAt_ne _ _ _ _ he1]
        rcases h k hk with hd | hd <;> rw [hd]
        · exact Or.inr (by norm_num)
        · exact Or.inl (by norm_num)
    · rw [blkAt_updAt_ne _ _ _ _ he2]
      by_cases he1 : k = t1
      · rw [← he1, blkAt_updAt_self _ _ _ hk]
        exact Or.inl rfl
      · rw [blkAt_updAt_ne _ _ _ _ he1]
        exact h k hk
  · exact h k hk

/-- A sign-walking step leaves oddities outside compartment heads
unchanged. -/
theorem blkAt_signWalkStep_o_nonheads (comps : List (List Nat)) (s : List Block)
    (t1 k : Nat) (h : ∀ c ∈ comps, k ≠ c.headD 0) :
    (blkAt (signWalkStep comps s t1) k).o = (blkAt s k).o := by
  rw [signWalkStep]
  split
  · rw [blkAt_oddityCorrect_nonheads _ _ _ _ h]
    have h2 := blkAt_updAt_dOnly_mnso s t1 k (fun _ => 1)
    have h3 := blkAt_updAt_dOnly_mnso (updAt s t1 fun b => { b with d := 1 })
      (t1 - 1) k (fun b => -1 * b.d)
    rw [h3.2.2.2, h2.2.2.2]
  · rfl

/-- A sign-walking step keeps oddities in `[0, 8)`. -/
theorem signWalkStep_o_range (comps : List (List Nat)) (s : List Block)
    (t1 k : Nat) (h : 0 ≤ (blkAt s k).o ∧ (blkAt s k).o < 8) :
    0 ≤ (blkAt (signWalkStep comps s t1) k).o
      ∧ (blkAt (signWalkStep comps s t1) k).o < 8 := by
  rw [signWalkStep]
  split
  · refine oddityCorrect_o_range comps t1 _ k ?_
    have h2 := blkAt_updAt_dOnly_mnso s t1 k (fun _ => 1)
    have h3 := blkAt_updAt_dOnly_mnso (updAt s t1 fun b => { b with d := 1 })
      (t1 - 1) k (fun b => -1 * b.d)
    rw [h3.2.2.2, h2.2.2.2]
    exact h
  · exact h

theorem reverse_dropLast_range' (a n : Nat) :
    (List.range' a (n + 1)).reverse.dropLast = (List.range' (a + 1) n).reverse := by
  rw [List.range'_succ, List.reverse_cons, List.dropLast_concat]

theorem headD_range' (a n : Nat) : (List.range' a (n + 1)).headD 0 = a := by
  rw [List.range'_succ]; rfl

/-- Sign walking down the decreasing index list
`a+n, a+n-1, …, a+1`: afterwards all of `a+1 … a+n` carry determinant
`+1`, determinants outside `[a, a+n]` are untouched, length is kept,
and determinants stay in `{1, -1}`. -/
theorem walk_range_post (comps : List (List Nat)) (a : Nat) :
    ∀ (n : Nat) (s : List Block),
      (∀ k, k < s.length → ((blkAt s k).d = 1 ∨ (blkAt s k).d = -1)) →
      a + n < s.length →
      ((∀ j, a + 1 ≤ j → j < a + 1 + n →
          (blkAt ((List.range' (a + 1) n).reverse.foldl (signWalkStep comps) s) j).d = 1)
        ∧ (∀ k, k < a ∨ a + n < k →
            (blkAt ((List.range' (a + 1) n).reverse.foldl (signWalkStep comps) s) k).d
              = (blkAt s k).d)
        ∧ ((List.range' (a + 1) n).reverse.foldl (signWalkStep comps) s).length
            = s.length
        ∧ (∀ k, k < s.length →
            ((blkAt ((List.range' (a + 1) n).reverse.foldl (signWalkStep comps) s) k).d = 1
              ∨ (blkAt ((List.range' (a + 1) n).reverse.foldl (signWalkStep comps) s) k).d
                  = -1))) := by
  intro n
  induction n with
  | zero =>
    intro s hdpm hlen
    exact ⟨fun j hj1 hj2 => absurd hj2 (by omega), fun k hk => rfl, rfl, hdpm⟩
  | succ n ih =>
    intro s hdpm hlen
    have hsplit : (List.range' (a + 1) (n + 1)).reverse
        = (a + 1 + n) :: (List.range' (a + 1) n).reverse := by
      rw [range'_concat_one]
      simp
    rw [hsplit, List.foldl_cons]
    have hlen₁ : (signWalkStep comps s (a + 1 + n)).length = s.length :=
      signWalkStep_length comps s (a + 1 + n)
    have hdpm₁ : ∀ k, k < (signWalkStep comps s (a + 1 + n)).length →
        ((blkAt (signWalkStep comps s (a + 1 + n)) k).d = 1
          ∨ (blkAt (signWalkStep comps s (a + 1 + n)) k).d = -1) := by
      rw [hlen₁]
      exact signWalkStep_dpm comps s _ hdpm
    obtain ⟨w1, w2, w3, w4⟩ := ih (signWalkStep comps s (a + 1 + n)) hdpm₁ (by omega)
    refine ⟨?_, ?_, ?_, ?_⟩
    · intro j hj1 hj2
      rcases Nat.lt_or_ge j (a + 1 + n) with hj | hj
      · exact w1 j hj1 hj
      · have hje : j = a + 1 + n := by omega
        rw [hje, w2 (a + 1 + n) (by omega)]
        exact blkAt_signWalkStep_d_t1 comps s _ (by omega) (by omega)
          (hdpm _ (by omega))
    · intro k hk
      rw [w2 k (by omega)]
      exact blkAt_signWalkStep_d_frame comps s _ k (by omega) (by omega)
    · rw [w3, hlen₁]
    · intro k hk
      exact w4 k (by omega)

/-- Walking the contiguous train `a … a+n` with `walkTrain`. -/
theorem walkTrain_post (comps : List (List Nat)) (s : List Block) (a n : Nat)
    (hdpm : ∀ k, k < s.length → ((blkAt s k).d = 1 ∨ (blkAt s k).d = -1))
    (hlen : a + n < s.length) :
    (∀ j, a + 1 ≤ j → j < a + 1 + n →
        (blkAt (walkTrain comps s (List.range' a (n + 1))) j).d = 1)
      ∧ (∀ k, k < a ∨ a + n < k →
          (blkAt (walkTrain comps s (List.range' a (n + 1))) k).d = (blkAt s k).d)
      ∧ (walkTrain comps s (List.range' a (n + 1))).length = s.length
      ∧ (∀ k, k < s.length →
          ((blkAt (walkTrain comps s (List.range' a (n + 1))) k).d = 1
            ∨ (blkAt (walkTrain comps s (List.range' a (n + 1))) k).d = -1)) := by
  rw [walkTrain, reverse_dropLast_range']
  exact walk_range_post comps a n s hdpm hlen

/-- The sign-walking pass over a list of contiguous, nonempty, in-range,
pairwise disjoint trains: length and the `{1, -1}` determinant range are
preserved, determinants outside all trains are untouched, and every
non-head train member ends with determinant `+1`. -/
theorem trainsFold_d (comps : List (List Nat)) (TS : List (List Nat)) :
    ∀ (s : List Block),
      (∀ T ∈ TS, ∃ a, T = List.range' a T.length) →
      (∀ T ∈ TS, T ≠ []) →
      (∀ T ∈ TS, ∀ j ∈ T, j < s.length) →
      TS.Pairwise List.Disjoint →
      (∀ k, k < s.length → ((blkAt s k).d = 1 ∨ (blkAt s k).d = -1)) →
      ((TS.foldl (walkTrain comps) s).length = s.length
        ∧ (∀ k, k < s.length →
            ((blkAt (TS.foldl (walkTrain comps) s) k).d = 1
              ∨ (blkAt (TS.foldl (walkTrain comps) s) k).d = -1))
        ∧ (∀ j, (∀ T ∈ TS, j ∉ T) →
            (blkAt (TS.foldl (walkTrain comps) s) j).d = (blkAt s j).d)
        ∧ (∀ T ∈ TS, ∀ j ∈ T, j ≠ T.headD 0 →
            (blkAt (TS.foldl (walkTrain comps) s) j).d = 1)) := by
  induction TS with
  | nil =>
    intro s _ _ _ _ hdpm
    exact ⟨rfl, hdpm, fun j _ => rfl, by simp⟩
  | cons T₀ rest ih =>
    intro s hcont hne hbound hdisj hdpm
    obtain ⟨a, ha⟩ := hcont T₀ (List.mem_cons_self _ _)
    have hne₀ : T₀ ≠ [] := hne T₀ (List.mem_cons_self _ _)
    obtain ⟨n, hn⟩ : ∃ n, T₀.length = n + 1 := by
      cases hLen : T₀.length with
      | zero => exact absurd (List.length_eq_zero.mp hLen) hne₀
      | succ n => exact ⟨n, rfl⟩
    rw [hn] at ha
    have hmax : a + n < s.length := by
      refine hbound T₀ (List.mem_cons_self _ _) (a + n) ?_
      rw [ha]
      exact List.mem_range'_1.mpr ⟨by omega, by omega⟩
    obtain ⟨w1, w2, w3, w4⟩ := walkTrain_post comps s a n hdpm hmax
    have hdisj0 : ∀ T ∈ rest, T₀.Disjoint T := (List.pairwise_cons.mp hdisj).1
    obtain ⟨i1, i2, i3, i4⟩ := ih (walkTrain comps s (List.range' a (n + 1)))
      (fun T hT => hcont T (List.mem_cons_of_mem _ hT))
      (fun T hT => hne T (List.mem_cons_of_mem _ hT))
      (fun T hT j hj => by
        rw [w3]
        exact hbound T (List.mem_cons_of_mem _ hT) j hj)
      (List.pairwise_cons.mp hdisj).2
      (fun k hk => w4 k (by rw [w3] at hk; exact hk))
    rw [List.foldl_cons, ha]
    refine ⟨?_, ?_, ?_, ?_⟩
    · rw [i1, w3]
    · intro k hk
      exact i2 k (by rw [w3]; exact hk)
    · intro j hj
      rw [i3 j (fun T hT => hj T (List.mem_cons_of_mem _ hT))]
      refine w2 j ?_
      have hj₀ : j ∉ List.range' a (n + 1) :=
        hj (List.range' a (n + 1)) (List.mem_cons_self _ _)
      rw [List.mem_range'_1] at hj₀
      omega
    · intro T hT j hj hjh
      rcases List.mem_cons.mp hT with rfl | hT'
      · -- the walked train: its non-head members now carry +1
        have hmem : j ∈ List.range' a (n + 1) := hj
        rw [List.mem_range'_1] at hmem
        have hhead : (List.range' a (n + 1)).headD 0 = a := headD_range' a n
        have hge : a + 1 ≤ j := by
          rcases Nat.lt_or_ge j (a + 1) with h | h
          · exfalso
            have hja : j = a := by omega
            rw [hhead] at hjh
            exact hjh hja
          · exact h
        rw [i3 j (fun T' hT'' hjT' =>
          hdisj0 T' hT'' (show j ∈ T₀ by rw [ha]; exact hj) hjT')]
        exact w1 j hge (by omega)
      · exact i4 T hT' j hj hjh

/-!
### Assembly: shape, determinants and train heads after the reduction
-/

theorem normalizeDet_mnso (b : Block) :
    (normalizeDet b).m = b.m ∧ (normalizeDet b).n = b.n ∧ (normalizeDet b).s = b.s
      ∧ (normalizeDet b).o = b.o := by
  rw [normalizeDet]
  split <;> exact ⟨rfl, rfl, rfl, rfl⟩

theorem normalizeDet_d (b : Block) :
    (normalizeDet b).d = 1 ∨ (normalizeDet b).d = -1 := by
  rw [normalizeDet]
  split
  · exact Or.inl rfl
  · exact Or.inr rfl

theorem shape_map_normalizeDet (sym : List Block) :
    shape (sym.map normalizeDet) = shape sym := by
  refine shape_eq_of_fields _ _ (by rw [List.length_map]) ?_
  intro k hk
  rw [List.length_map] at hk
  rw [blkAt_map _ _ _ hk]
  exact ⟨(normalizeDet_mnso _).1, (normalizeDet_mnso _).2.2.1⟩

theorem shape_foldFuse (comps : List (List Nat)) (s : List Block) :
    shape (comps.foldl fuseCompartment s) = shape s := by
  refine shape_eq_of_fields _ _ (foldFuse_length comps s) ?_
  intro k hk
  obtain ⟨h1, _, _, h4⟩ := blkAt_foldFuse_fields comps s k
  exact ⟨h1, h4⟩

/-- Bundled structural facts about the compartments of any symbol. -/
theorem compartments_facts (s : List Block) :
    (∀ c ∈ canonical_2_adic_compartments s, c ≠ [])
      ∧ (∀ c ∈ canonical_2_adic_compartments s, c.Nodup)
      ∧ (∀ c ∈ canonical_2_adic_compartments s, ∀ j ∈ c, j < s.length)
      ∧ (canonical_2_adic_compartments s).Pairwise List.Disjoint := by
  refine ⟨?_, ?_, ?_, ?_⟩
  · intro c hc
    obtain ⟨a, n, hn, hceq, _, _⟩ := compartments_good s c hc
    rw [hceq]
    cases n with
    | zero => exact absurd hn (lt_irrefl 0)
    | succ n => rw [List.range'_succ]; exact List.cons_ne_nil _ _
  · intro c hc
    obtain ⟨a, n, _, hceq, _, _⟩ := compartments_good s c hc
    rw [hceq]
    exact List.nodup_range' ..
  · intro c hc j hj
    obtain ⟨a, n, _, hceq, hlen, _⟩ := compartments_good s c hc
    rw [hceq] at hj
    have := List.mem_range'_1.mp hj
    omega
  · exact pairwise_disjoint_of_flatten_nodup _
      ((compartments_flatten_pairwise s).imp Nat.ne_of_lt)

theorem train_headD_le (b : Block) (l : List Block) :
    ∀ T ∈ canonical_2_adic_trains (b :: l), ∀ j ∈ T, T.headD 0 ≤ j := by
  intro T hT j hj
  obtain ⟨a, ha⟩ := trains_contiguous b l T hT
  have hne := trains_nonempty b l T hT
  obtain ⟨n, hn⟩ : ∃ n, T.length = n + 1 := by
    cases hLen : T.length with
    | zero => exact absurd (List.length_eq_zero.mp hLen) hne
    | succ n => exact ⟨n, rfl⟩
  rw [hn] at ha
  have h1 : a ≤ j := by
    have hj' : j ∈ List.range' a (n + 1) := by rw [← ha]; exact hj
    exact (List.mem_range'_1.mp hj').1
  have h2 : T.headD 0 = a := by rw [ha]; exact headD_range' a n
  omega

theorem blkAt_foldl_mns {α : Type} (step : List Block → α → List Block)
    (h : ∀ s x k, ((blkAt (step s x) k).m = (blkAt s k).m
      ∧ (blkAt (step s x) k).n = (blkAt s k).n
      ∧ (blkAt (step s x) k).s = (blkAt s k).s)) :
    ∀ (L : List α) (s : List Block) (k : Nat),
      (blkAt (L.foldl step s) k).m = (blkAt s k).m
        ∧ (blkAt (L.foldl step s) k).n = (blkAt s k).n
        ∧ (blkAt (L.foldl step s) k).s = (blkAt s k).s := by
  intro L
  induction L with
  | nil => exact fun s k => ⟨rfl, rfl, rfl⟩
  | cons x L ih =>
    intro s k
    obtain ⟨h1, h2, h3⟩ := ih (step s x) k
    obtain ⟨g1, g2, g3⟩ := h s x k
    exact ⟨h1.trans g1, h2.trans g2, h3.trans g3⟩

theorem walkTrain_length (comps : List (List Nat)) (s : List Block)
    (T : List Nat) : (walkTrain comps s T).length = s.length := by
  rw [walkTrain]
  exact length_foldl_step _ (fun s x => signWalkStep_length comps s x) _ s

theorem blkAt_walkTrain_mns (comps : List (List Nat)) (s : List Block)
    (T : List Nat) (k : Nat) :
    (blkAt (walkTrain comps s T) k).m = (blkAt s k).m
      ∧ (blkAt (walkTrain comps s T) k).n = (blkAt s k).n
      ∧ (blkAt (walkTrain comps s T) k).s = (blkAt s k).s := by
  rw [walkTrain]
  exact blkAt_foldl_mns _ (fun s x k => blkAt_signWalkStep_mns comps s x k) _ s k

/-- Claim C6: on a nonempty symbol, `canonical_2_adic_reduction`
preserves the length and every block's scale, rank and type; every
output determinant is `+1` or `-1`; train heads are the minimal indices
of their trains; and a block whose output determinant is `-1` must be
the head (lowest index) of its train — at most one `-1` per train. -/
theorem canonical_2_adic_reduction_shape_and_signs (b : Block) (l : List Block) :
    (canonical_2_adic_reduction (b :: l)).length = (b :: l).length
      ∧ (∀ k, k < (b :: l).length →
          ((blkAt (canonical_2_adic_reduction (b :: l)) k).m = (blkAt (b :: l) k).m
            ∧ (blkAt (canonical_2_adic_reduction (b :: l)) k).n = (blkAt (b :: l) k).n
            ∧ (blkAt (canonical_2_adic_reduction (b :: l)) k).s = (blkAt (b :: l) k).s))
      ∧ (∀ bb ∈ canonical_2_adic_reduction (b :: l), bb.d = 1 ∨ bb.d = -1)
      ∧ (∀ T ∈ canonical_2_adic_trains (b :: l), ∀ j ∈ T, T.headD 0 ≤ j)
      ∧ (∀ T ∈ canonical_2_adic_trains (b :: l), ∀ j ∈ T,
          (blkAt (canonical_2_adic_reduction (b :: l)) j).d = -1 → j = T.headD 0) := by
  -- notation for the pipeline stages
  have hred : canonical_2_adic_reduction (b :: l) =
      (canonical_2_adic_trains
          ((canonical_2_adic_compartments ((b :: l).map normalizeDet)).foldl
            fuseCompartment ((b :: l).map normalizeDet))).foldl
        (walkTrain (canonical_2_adic_compartments ((b :: l).map normalizeDet)))
        ((canonical_2_adic_compartments ((b :: l).map normalizeDet)).foldl
          fuseCompartment ((b :: l).map normalizeDet)) := rfl
  set s1 := (b :: l).map normalizeDet with hs1
  set comps := canonical_2_adic_compartments s1 with hcomps
  set s2 := comps.foldl fuseCompartment s1 with hs2
  -- stage lengths
  have hlen1 : s1.length = (b :: l).length := by rw [hs1, List.length_map]
  have hlen2 : s2.length = (b :: l).length := by rw [hs2, foldFuse_length, hlen1]
  -- determinants of s1 and s2 are ±1
  have hdpm1 : ∀ k, k < s1.length → ((blkAt s1 k).d = 1 ∨ (blkAt s1 k).d = -1) := by
    intro k hk
    rw [hs1, blkAt_map _ _ _ (by rw [hlen1] at hk; exact hk)]
    exact normalizeDet_d _
  have hdpm2 : ∀ k, k < s2.length → ((blkAt s2 k).d = 1 ∨ (blkAt s2 k).d = -1) := by
    intro k hk
    rw [hs2]
    have hd := (blkAt_foldFuse_fields comps s1 k).2.2.1
    rw [hd]
    exact hdpm1 k (by omega)
  -- s2 as a cons (it is nonempty)
  obtain ⟨b2, l2, hs2c⟩ : ∃ b2 l2, s2 = b2 :: l2 := by
    cases hsc : s2 with
    | nil => rw [hsc] at hlen2; simp at hlen2
    | cons x y => exact ⟨x, y, rfl⟩
  -- shapes agree, hence trains of s2 are trains of the input
  have hshape : shape s2 = shape (b :: l) := by
    rw [hs2, shape_foldFuse, hs1, shape_map_normalizeDet]
  have htr : canonical_2_adic_trains s2 = canonical_2_adic_trains (b :: l) :=
    trains_shape _ _ hshape
  -- train facts for s2
  have hTcont : ∀ T ∈ canonical_2_adic_trains s2, ∃ a, T = List.range' a T.length := by
    rw [hs2c]; exact trains_contiguous b2 l2
  have hTne : ∀ T ∈ canonical_2_adic_trains s2, T ≠ [] := by
    rw [hs2c]; exact trains_nonempty b2 l2
  have hTbound : ∀ T ∈ canonical_2_adic_trains s2, ∀ j ∈ T, j < s2.length := by
    rw [hs2c]; exact trains_mem_lt b2 l2
  have hTdisj : (canonical_2_adic_trains s2).Pairwise List.Disjoint := by
    rw [hs2c]
    exact pairwise_disjoint_of_flatten_nodup _ (trains_flatten_nodup b2 l2)
  obtain ⟨f1, f2, f3, f4⟩ :=
    trainsFold_d comps (canonical_2_adic_trains s2) s2 hTcont hTne hTbound hTdisj hdpm2
  rw [htr] at f1 f2 f3 f4
  refine ⟨?_, ?_, ?_, train_headD_le b l, ?_⟩
  · rw [hred, htr, f1]; exact hlen2
  · intro k hk
    rw [hred, htr]
    obtain ⟨w1, w2, w3⟩ :=
      blkAt_foldl_mns _ (fun s x k => blkAt_walkTrain_mns comps s x k)
        (canonical_2_adic_trains s2) s2 k
    rw [htr] at w1 w2 w3
    obtain ⟨g1, g2, _, g4⟩ := blkAt_foldFuse_fields comps s1 k
    have hmap := blkAt_map normalizeDet (b :: l) k (by omega)
    obtain ⟨n1, n2, n3, _⟩ := normalizeDet_mnso (blkAt (b :: l) k)
    have e1 : (blkAt s1 k).m = (blkAt (b :: l) k).m := by rw [hs1, hmap, n1]
    have e2 : (blkAt s1 k).n = (blkAt (b :: l) k).n := by rw [hs1, hmap, n2]
    have e3 : (blkAt s1 k).s = (blkAt (b :: l) k).s := by rw [hs1, hmap, n3]
    exact ⟨w1.trans (g1.trans e1), w2.trans (g2.trans e2), w3.trans (g4.trans e3)⟩
  · intro bb hbb
    obtain ⟨k, hk, hbk⟩ := mem_exists_blkAt _ bb hbb
    rw [← hbk, hred, htr]
    refine f2 k ?_
    rw [hred, htr] at hk
    omega
  · intro T hT j hj hdneg
    by_contra hne
    have h1 : (blkAt (canonical_2_adic_reduction (b :: l)) j).d = 1 := by
      rw [hred, htr]
      exact f4 T hT j hj hne
    rw [h1] at hdneg
    exact absurd hdneg (by decide)

/-- Witness for `canonical_2_adic_reduction_shape_and_signs` at the
symbol `[[1,2,3,1,4],[2,1,1,1,1],[3,1,1,1,1]]`. -/
theorem canonical_2_adic_reduction_shape_and_signs_witness :
    (canonical_2_adic_reduction [⟨1, 2, 3, 1, 4⟩, ⟨2, 1, 1, 1, 1⟩, ⟨3, 1, 1, 1, 1⟩]).length
        = ([⟨1, 2, 3, 1, 4⟩, ⟨2, 1, 1, 1, 1⟩, ⟨3, 1, 1, 1, 1⟩] : List Block).length
      ∧ (∀ k, k < ([⟨1, 2, 3, 1, 4⟩, ⟨2, 1, 1, 1, 1⟩, ⟨3, 1, 1, 1, 1⟩] : List Block).length →
          ((blkAt (canonical_2_adic_reduction
              [⟨1, 2, 3, 1, 4⟩, ⟨2, 1, 1, 1, 1⟩, ⟨3, 1, 1, 1, 1⟩]) k).m
              = (blkAt [⟨1, 2, 3, 1, 4⟩, ⟨2, 1, 1, 1, 1⟩, ⟨3, 1, 1, 1, 1⟩] k).m
            ∧ (blkAt (canonical_2_adic_reduction
              [⟨1, 2, 3, 1, 4⟩, ⟨2, 1, 1, 1, 1⟩, ⟨3, 1, 1, 1, 1⟩]) k).n
              = (blkAt [⟨1, 2, 3, 1, 4⟩, ⟨2, 1, 1, 1, 1⟩, ⟨3, 1, 1, 1, 1⟩] k).n
            ∧ (blkAt (canonical_2_adic_reduction
              [⟨1, 2, 3, 1, 4⟩, ⟨2, 1, 1, 1, 1⟩, ⟨3, 1, 1, 1, 1⟩]) k).s
              = (blkAt [⟨1, 2, 3, 1, 4⟩, ⟨2, 1, 1, 1, 1⟩, ⟨3, 1, 1, 1, 1⟩] k).s))
      ∧ (∀ bb ∈ canonical_2_adic_reduction
            [⟨1, 2, 3, 1, 4⟩, ⟨2, 1, 1, 1, 1⟩, ⟨3, 1, 1, 1, 1⟩],
          bb.d = 1 ∨ bb.d = -1)
      ∧ (∀ T ∈ canonical_2_adic_trains [⟨1, 2, 3, 1, 4⟩, ⟨2, 1, 1, 1, 1⟩, ⟨3, 1, 1, 1, 1⟩],
          ∀ j ∈ T, T.headD 0 ≤ j)
      ∧ (∀ T ∈ canonical_2_adic_trains [⟨1, 2, 3, 1, 4⟩, ⟨2, 1, 1, 1, 1⟩, ⟨3, 1, 1, 1, 1⟩],
          ∀ j ∈ T,
          (blkAt (canonical_2_adic_reduction
            [⟨1, 2, 3, 1, 4⟩, ⟨2, 1, 1, 1, 1⟩, ⟨3, 1, 1, 1, 1⟩]) j).d = -1 →
            j = T.headD 0) :=
  canonical_2_adic_reduction_shape_and_signs ⟨1, 2, 3, 1, 4⟩
    [⟨2, 1, 1, 1, 1⟩, ⟨3, 1, 1, 1, 1⟩]

/-!
### Idempotence of the reduction
-/

theorem block_with_d_self (b : Block) (x : Int) (h : b.d = x) :
    ({ b with d := x } : Block) = b := by cases b; cases h; rfl

theorem normalizeDet_id (b : Block) (h : b.d = 1 ∨ b.d = -1) :
    normalizeDet b = b := by
  rw [normalizeDet]
  rcases h with h | h
  · rw [if_pos (Or.inl h)]
    exact block_with_d_self b 1 h
  · rw [if_neg (by rw [h]; decide)]
    exact block_with_d_self b (-1) h

/-- Fusing a compartment whose oddities are already fused (non-head
members 0, head in `[0, 8)`) does not change the symbol. -/
theorem fuse_id (s : List Block) (c : List Nat) (hne : c ≠ []) (hnd : c.Nodup)
    (hbound : ∀ j ∈ c, j < s.length)
    (hzero : ∀ j ∈ c, j ≠ c.headD 0 → (blkAt s j).o = 0)
    (hrange : 0 ≤ (blkAt s (c.headD 0)).o ∧ (blkAt s (c.headD 0)).o < 8) :
    fuseCompartment s c = s := by
  refine eq_of_blkAt_eq _ _ (fuseCompartment_length s c) ?_
  intro k
  by_cases hm : k ∈ c
  · by_cases hh : k = c.headD 0
    · rw [hh, blkAt_fuseCompartment_head s c hne (hbound _ (headD_mem c hne))]
      have hsum : ((c.map fun i => (blkAt s i).o).sum) = (blkAt s (c.headD 0)).o := by
        obtain ⟨h₀, t, hct⟩ : ∃ h₀ t, c = h₀ :: t := by
          cases c with
          | nil => exact absurd rfl hne
          | cons x y => exact ⟨x, y, rfl⟩
        subst hct
        simp only [List.map_cons, List.sum_cons, List.headD_cons]
        have htz : ((t.map fun i => (blkAt s i).o).sum) = 0 := by
          refine sum_eq_zero_of_forall_zero _ ?_
          intro x hx
          obtain ⟨i, hi, rfl⟩ := List.mem_map.mp hx
          refine hzero i (List.mem_cons_of_mem _ hi) ?_
          intro hih
          rw [List.headD_cons] at hih
          exact (List.nodup_cons.mp hnd).1 (by rw [← hih]; exact hi)
        rw [htz, add_zero]
      rw [hsum, Int.emod_eq_of_lt hrange.1 hrange.2]
    · rw [blkAt_fuseCompartment_nonhead s c k hm hh (hbound k hm)]
      exact block_with_o_self _ _ (hzero k hm hh)
  · exact blkAt_fuseCompartment_notmem s c k hne hm

theorem foldFuse_id (comps : List (List Nat)) (s : List Block)
    (h : ∀ c ∈ comps, fuseCompartment s c = s) :
    comps.foldl fuseCompartment s = s := by
  induction comps with
  | nil => rfl
  | cons c cs ih =>
    rw [List.foldl_cons, h c (List.mem_cons_self _ _)]
    exact ih (fun c' hc' => h c' (List.mem_cons_of_mem _ hc'))

theorem foldSW_id (comps : List (List Nat)) (ts : List Nat) :
    ∀ s : List Block, (∀ t1 ∈ ts, (blkAt s t1).d ≠ -1) →
      ts.foldl (signWalkStep comps) s = s := by
  induction ts with
  | nil => exact fun s _ => rfl
  | cons t ts ih =>
    intro s h
    have hstep : signWalkStep comps s t = s := by
      rw [signWalkStep, if_neg (h t (List.mem_cons_self _ _))]
    rw [List.foldl_cons, hstep]
    exact ih s (fun t1 ht1 => h t1 (List.mem_cons_of_mem _ ht1))

theorem walkTrain_id (comps : List (List Nat)) (s : List Block) (T : List Nat)
    (h : ∀ t1 ∈ T.reverse.dropLast, (blkAt s t1).d ≠ -1) :
    walkTrain comps s T = s := by
  rw [walkTrain]
  exact foldSW_id comps _ s h

theorem foldWalk_id (comps : List (List Nat)) (TS : List (List Nat))
    (s : List Block) (h : ∀ T ∈ TS, walkTrain comps s T = s) :
    TS.foldl (walkTrain comps) s = s := by
  induction TS with
  | nil => rfl
  | cons T TS ih =>
    rw [List.foldl_cons, h T (List.mem_cons_self _ _)]
    exact ih (fun T' hT' => h T' (List.mem_cons_of_mem _ hT'))

/-- Internal state of the reduction output: length and shape are those
of the input; all determinants are `±1`; non-head train members carry
`+1`; compartment oddities are fused (non-head members 0, heads in
`[0, 8)`), where the compartments are those computed by the reduction
itself (on the determinant-normalized input). -/
theorem reduction_internals (b : Block) (l : List Block) :
    (canonical_2_adic_reduction (b :: l)).length = (b :: l).length
      ∧ shape (canonical_2_adic_reduction (b :: l)) = shape (b :: l)
      ∧ (∀ k, k < (b :: l).length →
          ((blkAt (canonical_2_adic_reduction (b :: l)) k).d = 1
            ∨ (blkAt (canonical_2_adic_reduction (b :: l)) k).d = -1))
      ∧ (∀ T ∈ canonical_2_adic_trains (b :: l), ∀ j ∈ T, j ≠ T.headD 0 →
          (blkAt (canonical_2_adic_reduction (b :: l)) j).d = 1)
      ∧ (∀ c ∈ canonical_2_adic_compartments ((b :: l).map normalizeDet),
          ∀ j ∈ c, j ≠ c.headD 0 →
            (blkAt (canonical_2_adic_reduction (b :: l)) j).o = 0)
      ∧ (∀ c ∈ canonical_2_adic_compartments ((b :: l).map normalizeDet),
          0 ≤ (blkAt (canonical_2_adic_reduction (b :: l)) (c.headD 0)).o
            ∧ (blkAt (canonical_2_adic_reduction (b :: l)) (c.headD 0)).o < 8) := by
  have hred : canonical_2_adic_reduction (b :: l) =
      (canonical_2_adic_trains
          ((canonical_2_adic_compartments ((b :: l).map normalizeDet)).foldl
            fuseCompartment ((b :: l).map normalizeDet))).foldl
        (walkTrain (canonical_2_adic_compartments ((b :: l).map normalizeDet)))
        ((canonical_2_adic_compartments ((b :: l).map normalizeDet)).foldl
          fuseCompartment ((b :: l).map normalizeDet)) := rfl
  set s1 := (b :: l).map normalizeDet with hs1
  set comps := canonical_2_adic_compartments s1 with hcomps
  set s2 := comps.foldl fuseCompartment s1 with hs2
  obtain ⟨cf1, cf2, cf3, cf4⟩ := compartments_facts s1
  have hlen1 : s1.length = (b :: l).length := by rw [hs1, List.length_map]
  have hlen2 : s2.length = (b :: l).length := by rw [hs2, foldFuse_length, hlen1]
  have hdpm1 : ∀ k, k < s1.length → ((blkAt s1 k).d = 1 ∨ (blkAt s1 k).d = -1) := by
    intro k hk
    rw [hs1, blkAt_map _ _ _ (by rw [hlen1] at hk; exact hk)]
    exact normalizeDet_d _
  have hdpm2 : ∀ k, k < s2.length → ((blkAt s2 k).d = 1 ∨ (blkAt s2 k).d = -1) := by
    intro k hk
    rw [hs2]
    rw [(blkAt_foldFuse_fields comps s1 k).2.2.1]
    exact hdpm1 k (by omega)
  obtain ⟨b2, l2, hs2c⟩ : ∃ b2 l2, s2 = b2 :: l2 := by
    cases hsc : s2 with
    | nil => rw [hsc] at hlen2; simp at hlen2
    | cons x y => exact ⟨x, y, rfl⟩
  have hshape2 : shape s2 = shape (b :: l) := by
    rw [hs2, shape_foldFuse, hs1, shape_map_normalizeDet]
  have htr : canonical_2_adic_trains s2 = canonical_2_adic_trains (b :: l) :=
    trains_shape _ _ hshape2
  have hTcont : ∀ T ∈ canonical_2_adic_trains s2, ∃ a, T = List.range' a T.length := by
    rw [hs2c]; exact trains_contiguous b2 l2
  have hTne : ∀ T ∈ canonical_2_adic_trains s2, T ≠ [] := by
    rw [hs2c]; exact trains_nonempty b2 l2
  have hTbound : ∀ T ∈ canonical_2_adic_trains s2, ∀ j ∈ T, j < s2.length := by
    rw [hs2c]; exact trains_mem_lt b2 l2
  have hTdisj : (canonical_2_adic_trains s2).Pairwise List.Disjoint := by
    rw [hs2c]
    exact pairwise_disjoint_of_flatten_nodup _ (trains_flatten_nodup b2 l2)
  obtain ⟨f1, f2, f3, f4⟩ :=
    trainsFold_d comps (canonical_2_adic_trains s2) s2 hTcont hTne hTbound hTdisj hdpm2
  rw [htr] at f1 f2 f3 f4
  -- the oddity invariant survives the walking pass
  have hOINV : (∀ c ∈ comps, ∀ j ∈ c, j ≠ c.headD 0 →
        (blkAt ((canonical_2_adic_trains s2).foldl (walkTrain comps) s2) j).o = 0)
      ∧ (∀ c ∈ comps,
          0 ≤ (blkAt ((canonical_2_adic_trains s2).foldl (walkTrain comps) s2)
              (c.headD 0)).o
            ∧ (blkAt ((canonical_2_adic_trains s2).foldl (walkTrain comps) s2)
              (c.headD 0)).o < 8) := by
    have hpostfuse := foldFuse_oddity_post comps s1 cf1 cf2 cf3 cf4
    have hstep : ∀ (s : List Block) (t1 : Nat),
        ((∀ c ∈ comps, ∀ j ∈ c, j ≠ c.headD 0 → (blkAt s j).o = 0)
          ∧ (∀ c ∈ comps, 0 ≤ (blkAt s (c.headD 0)).o ∧ (blkAt s (c.headD 0)).o < 8)) →
        ((∀ c ∈ comps, ∀ j ∈ c, j ≠ c.headD 0 →
            (blkAt (signWalkStep comps s t1) j).o = 0)
          ∧ (∀ c ∈ comps, 0 ≤ (blkAt (signWalkStep comps s t1) (c.headD 0)).o
              ∧ (blkAt (signWalkStep comps s t1) (c.headD 0)).o < 8)) := by
      intro s t1 hP
      constructor
      · intro c hc j hj hjh
        rw [blkAt_signWalkStep_o_nonheads comps s t1 j ?_]
        · exact hP.1 c hc j hj hjh
        · intro c' hc' hje
          have hjc' : j ∈ c' := by rw [hje]; exact headD_mem c' (cf1 c' hc')
          have hcc : c = c' := compartments_mem_unique s1 c c' hc hc' j hj hjc'
          rw [← hcc] at hje
          exact hjh hje
      · intro c hc
        exact signWalkStep_o_range comps s t1 _ (hP.2 c hc)
    have hwt : ∀ (s : List Block) (T : List Nat),
        ((∀ c ∈ comps, ∀ j ∈ c, j ≠ c.headD 0 → (blkAt s j).o = 0)
          ∧ (∀ c ∈ comps, 0 ≤ (blkAt s (c.headD 0)).o ∧ (blkAt s (c.headD 0)).o < 8)) →
        ((∀ c ∈ comps, ∀ j ∈ c, j ≠ c.headD 0 → (blkAt (walkTrain comps s T) j).o = 0)
          ∧ (∀ c ∈ comps, 0 ≤ (blkAt (walkTrain comps s T) (c.headD 0)).o
              ∧ (blkAt (walkTrain comps s T) (c.headD 0)).o < 8)) := by
      intro s T hP
      rw [walkTrain]
      exact foldl_pres (signWalkStep comps) _ (fun s x hx => hstep s x hx) _ s hP
    refine foldl_pres (walkTrain comps) _ (fun s x hx => hwt s x hx)
      (canonical_2_adic_trains s2) s2 ⟨?_, ?_⟩
    · intro c hc j hj hjh
      exact ((hpostfuse c hc).1) j hj hjh
    · intro c hc
      exact ⟨(hpostfuse c hc).2.1, (hpostfuse c hc).2.2⟩
  refine ⟨?_, ?_, ?_, ?_, ?_, ?_⟩
  · rw [hred, htr, f1]; exact hlen2
  · rw [hred, htr]
    refine (shape_eq_of_fields _ _ f1 ?_).trans hshape2
    intro k hk
    obtain ⟨w1, _, w3⟩ :=
      blkAt_foldl_mns _ (fun s x k => blkAt_walkTrain_mns comps s x k)
        (canonical_2_adic_trains (b :: l)) s2 k
    exact ⟨w1, w3⟩
  · intro k hk
    rw [hred, htr]
    exact f2 k (by omega)
  · intro T hT j hj hjh
    rw [hred, htr]
    exact f4 T hT j hj hjh
  · intro c hc j hj hjh
    rw [hred, htr]
    rw [htr] at hOINV
    exact hOINV.1 c hc j hj hjh
  · intro c hc
    rw [hred, htr]
    rw [htr] at hOINV
    exact hOINV.2 c hc

/-- Claim C3: `canonical_2_adic_reduction` is idempotent on nonempty
2-adic symbols. -/
theorem canonical_2_adic_reduction_idempotent (b : Block) (l : List Block) :
    canonical_2_adic_reduction (canonical_2_adic_reduction (b :: l))
      = canonical_2_adic_reduction (b :: l) := by
  obtain ⟨hlen, hshape, hdpm, htails, hz, hr⟩ := reduction_internals b l
  obtain ⟨cf1, cf2, cf3, cf4⟩ := compartments_facts ((b :: l).map normalizeDet)
  set out := canonical_2_adic_reduction (b :: l) with hout
  -- second-pass determinant normalization is the identity
  have hmapid : out.map normalizeDet = out := by
    refine map_eq_self_of_mem _ _ ?_
    intro bb hbb
    obtain ⟨k, hk, hbk⟩ := mem_exists_blkAt _ bb hbb
    refine normalizeDet_id bb ?_
    rw [← hbk]
    exact hdpm k (by omega)
  -- second-pass compartments are the first-pass compartments
  have hcomps2 : canonical_2_adic_compartments (out.map normalizeDet)
      = canonical_2_adic_compartments ((b :: l).map normalizeDet) := by
    rw [hmapid]
    refine compartments_shape _ _ ?_
    rw [hshape, ← shape_map_normalizeDet]
  -- second-pass oddity fusion is the identity
  have hfuse2 : (canonical_2_adic_compartments (out.map normalizeDet)).foldl
      fuseCompartment (out.map normalizeDet) = out := by
    rw [hcomps2, hmapid]
    refine foldFuse_id _ _ ?_
    intro c hc
    refine fuse_id out c (cf1 c hc) (cf2 c hc) ?_
      (fun j hj hjh => hz c hc j hj hjh) (hr c hc)
    intro j hj
    have hj' := cf3 c hc j hj
    rw [List.length_map] at hj'
    omega
  -- second-pass trains are the first-pass trains
  have htrout : canonical_2_adic_trains out = canonical_2_adic_trains (b :: l) :=
    trains_shape _ _ hshape
  -- second-pass sign walking is the identity
  show (canonical_2_adic_trains
      ((canonical_2_adic_compartments (out.map normalizeDet)).foldl
        fuseCompartment (out.map normalizeDet))).foldl
    (walkTrain (canonical_2_adic_compartments (out.map normalizeDet)))
    ((canonical_2_adic_compartments (out.map normalizeDet)).foldl
      fuseCompartment (out.map normalizeDet)) = out
  rw [hfuse2, hcomps2, htrout]
  refine foldWalk_id _ _ _ ?_
  intro T hT
  refine walkTrain_id _ _ _ ?_
  intro t1 ht1
  -- t1 is a non-head member of T, so its determinant is +1
  obtain ⟨a, ha⟩ := trains_contiguous b l T hT
  have hne := trains_nonempty b l T hT
  obtain ⟨n, hn⟩ : ∃ n, T.length = n + 1 := by
    cases hLen : T.length with
    | zero => exact absurd (List.length_eq_zero.mp hLen) hne
    | succ n => exact ⟨n, rfl⟩
  rw [hn] at ha
  rw [ha, reverse_dropLast_range', List.mem_reverse, List.mem_range'_1] at ht1
  have hmem : t1 ∈ T := by
    rw [ha]
    exact List.mem_range'_1.mpr ⟨by omega, by omega⟩
  have hhd : T.headD 0 = a := by rw [ha]; exact headD_range' a n
  have hd1 : (blkAt out t1).d = 1 := htails T hT t1 hmem (by omega)
  rw [hd1]
  decide

/-- Claim C8: neither `canonical_2_adic_trains` nor
`canonical_2_adic_reduction` changes the caller's symbol list: the
trains function pops its appended terminator before returning (the
caller observes the original list and the same trains), and the
reduction operates on a private deep copy. -/
theorem trains_and_reduction_preserve_input (b : Block) (l : List Block) :
    (canonical_2_adic_trains_mut (b :: l)).2 = b :: l
      ∧ (canonical_2_adic_trains_mut (b :: l)).1 = canonical_2_adic_trains (b :: l)
      ∧ (canonical_2_adic_reduction_mut (b :: l)).2 = b :: l := by
  refine ⟨?_, rfl, rfl⟩
  show ((b :: l) ++ [_]).dropLast = b :: l
  exact List.dropLast_concat

end SageGenus
